/-
Verification of the offline multipart QR transfer protocol, scan aggregation,
validation and encrypted-storage layers of the emergency-handoff application.

The TypeScript sources are shallowly embedded in Lean:
JavaScript strings become `List Char`, fallible operations return `Option`,
and the browser built-ins (`JSON.stringify`/`JSON.parse`, the lz-string
compression codec, WebCrypto encryption, the clock) are modelled explicitly
where noted, faithful to the specification's contract for them.
-/
import Mathlib

/-! # Decimal rendering and parsing (shared by the number model and headers) -/

/-- Character for the decimal digit `d` (`'0'` for 0, ..., `'9'` for 9). -/
def digitChar (d : Nat) : Char := Char.ofNat (48 + d)

/-- Fuel-driven big-endian decimal digits of `n` (empty for 0); written with
a bare `Nat.rec` so that the kernel unfolds one fuel step per digit. -/
def toDecimalAux (fuel : Nat) : Nat → List Char :=
  Nat.rec (motive := fun _ => Nat → List Char)
    (fun _ => [])
    (fun _ ih n => if n = 0 then [] else ih (n / 10) ++ [digitChar (n % 10)])
    fuel

/-- Decimal rendering of a natural number, as JavaScript template interpolation
`${n}` produces for a non-negative integer. -/
def toDecimal (n : Nat) : List Char :=
  if n = 0 then ['0'] else toDecimalAux n n

/-- Whether a character is an ASCII decimal digit. -/
def isDigit (c : Char) : Bool := 48 ≤ c.toNat && c.toNat ≤ 57

/-- Split a character list into its longest digit prefix and the remainder. -/
def takeDigits : List Char → (List Char × List Char)
  | [] => ([], [])
  | c :: cs =>
    if isDigit c then
      let (d, r) := takeDigits cs
      (c :: d, r)
    else ([], c :: cs)

/-- Numeric value of a big-endian digit string. -/
def digitsToNat (l : List Char) : Nat := l.foldl (fun a c => 10 * a + (c.toNat - 48)) 0

/-- Parse a decimal numeral followed by a `':'` delimiter. -/
def parseNatColon (l : List Char) : Option (Nat × List Char) :=
  let (ds, r) := takeDigits l
  if ds = [] then none
  else match r with
    | ':' :: r2 => some (digitsToNat ds, r2)
    | _ => none

/-! # Runtime JSON values

`Json` is the runtime value universe of the embedded JavaScript code: what
`JSON.parse` produces and `JSON.stringify` consumes.  Numbers are modelled as
integers (the only numeric field in the data model, `age`, is integral). -/

mutual
inductive Json where
  | null : Json
  | bool (b : Bool) : Json
  | num (i : Int) : Json
  | str (s : List Char) : Json
  | arr (l : JsonList) : Json
  | obj (l : JsonKVs) : Json
inductive JsonList where
  | nil : JsonList
  | cons (v : Json) (tl : JsonList) : JsonList
inductive JsonKVs where
  | nil : JsonKVs
  | cons (k : List Char) (v : Json) (tl : JsonKVs) : JsonKVs
end

/-- Number of elements of a JSON array. -/
def JsonList.length : JsonList → Nat
  | .nil => 0
  | .cons _ tl => tl.length + 1

/-- Number of key-value pairs of a JSON object. -/
def JsonKVs.length : JsonKVs → Nat
  | .nil => 0
  | .cons _ _ tl => tl.length + 1

/-- View of a JSON array as an ordinary list. -/
def JsonList.toList : JsonList → List Json
  | .nil => []
  | .cons v tl => v :: tl.toList

/-- Build a JSON array from an ordinary list. -/
def JsonList.ofList : List Json → JsonList
  | [] => .nil
  | v :: tl => .cons v (JsonList.ofList tl)

/-- Build a JSON object from an ordinary list of key-value pairs. -/
def JsonKVs.ofList : List (List Char × Json) → JsonKVs
  | [] => .nil
  | kv :: tl => .cons kv.1 kv.2 (JsonKVs.ofList tl)

/-- Serialization of a string with a decimal length header. -/
def strSer (s : List Char) : List Char :=
  's' :: toDecimal s.length ++ ':' :: s

mutual
/-- Modelled from the spec: the built-in `JSON.stringify`, which serializes a
runtime value "to a canonical text form" (§4.3).  The canonical form used by
the model is tag-plus-length-prefixed: it is total, injective and exactly
inverted by `jsonParse` below, which is the contract the code relies on. -/
def jsonStringify : Json → List Char
  | .null => ['n']
  | .bool true => ['t']
  | .bool false => ['f']
  | .num i =>
    'i' :: (if i < 0 then '-' :: toDecimal i.natAbs else toDecimal i.natAbs) ++ [';']
  | .str s => strSer s
  | .arr l => 'a' :: toDecimal l.length ++ ':' :: stringifyList l
  | .obj kvs => 'o' :: toDecimal kvs.length ++ ':' :: stringifyKVs kvs
def stringifyList : JsonList → List Char
  | .nil => []
  | .cons v tl => jsonStringify v ++ stringifyList tl
def stringifyKVs : JsonKVs → List Char
  | .nil => []
  | .cons k v tl => strSer k ++ jsonStringify v ++ stringifyKVs tl
end

mutual
/-- Fuel-indexed parser for the canonical text form: value parser. -/
def parseJ : Nat → List Char → Option (Json × List Char)
  | 0, _ => none
  | _+1, 'n' :: r => some (.null, r)
  | _+1, 't' :: r => some (.bool true, r)
  | _+1, 'f' :: r => some (.bool false, r)
  | _+1, 'i' :: r =>
    (match r with
     | '-' :: r2 =>
       match takeDigits r2 with
       | ([], _) => none
       | (ds, ';' :: r3) => some (.num (-(digitsToNat ds : Int)), r3)
       | (_, _) => none
     | _ =>
       match takeDigits r with
       | ([], _) => none
       | (ds, ';' :: r3) => some (.num (digitsToNat ds : Int), r3)
       | (_, _) => none)
  | _+1, 's' :: r =>
    (match parseNatColon r with
     | some (n, r2) => if n ≤ r2.length then some (.str (r2.take n), r2.drop n) else none
     | none => none)
  | fuel+1, 'a' :: r =>
    (match parseNatColon r with
     | some (n, r2) =>
       match parseSeq fuel n r2 with
       | some (l, r3) => some (.arr l, r3)
       | none => none
     | none => none)
  | fuel+1, 'o' :: r =>
    (match parseNatColon r with
     | some (n, r2) =>
       match parseKVs fuel n r2 with
       | some (l, r3) => some (.obj l, r3)
       | none => none
     | none => none)
  | _+1, _ => none
def parseSeq : Nat → Nat → List Char → Option (JsonList × List Char)
  | _, 0, r => some (.nil, r)
  | 0, _+1, _ => none
  | fuel+1, n+1, r =>
    match parseJ fuel r with
    | some (v, r2) =>
      match parseSeq fuel n r2 with
      | some (l, r3) => some (.cons v l, r3)
      | none => none
    | none => none
def parseKVs : Nat → Nat → List Char → Option (JsonKVs × List Char)
  | _, 0, r => some (.nil, r)
  | 0, _+1, _ => none
  | fuel+1, n+1, r =>
    match parseJ fuel r with
    | some (.str k, r2) =>
      match parseJ fuel r2 with
      | some (v, r3) =>
        match parseKVs fuel n r3 with
        | some (l, r4) => some (.cons k v l, r4)
        | none => none
      | none => none
    | _ => none
end

/-- Modelled from the spec: the built-in `JSON.parse`.  Returns `none` exactly
where the JavaScript original would throw on malformed input; code that wraps
`JSON.parse` in `try`/`catch` is embedded by matching on this option. -/
def jsonParse (s : List Char) : Option Json :=
  match parseJ (s.length + 1) s with
  | some (v, []) => some v
  | _ => none

/-- Round-trip property of a single Json value. -/
def ParsesBack (v : Json) : Prop :=
  ∀ f r, (jsonStringify v).length ≤ f → parseJ f (jsonStringify v ++ r) = some (v, r)

/-- Property lookup `j[k]` as JavaScript evaluates it on a parsed JSON value:
a present key yields its value, anything else is `undefined` (`none`). -/
def jsGetField (j : Json) (k : List Char) : Option Json :=
  match j with
  | .obj kvs => jsFindField kvs k
  | _ => none
where
  jsFindField : JsonKVs → List Char → Option Json
  | .nil, _ => none
  | .cons k2 v tl, key => if k2 = key then some v else jsFindField tl key

/-- JavaScript truthiness of a possibly-undefined JSON value. -/
def jsTruthy : Option Json → Bool
  | none => false
  | some .null => false
  | some (.bool b) => b
  | some (.num i) => decide (i ≠ 0)
  | some (.str s) => decide (s ≠ [])
  | some (.arr _) => true
  | some (.obj _) => true

/-- JavaScript `x || d` on a possibly-undefined JSON value. -/
def jsOr (o : Option Json) (d : Json) : Json :=
  match o with
  | some v => if jsTruthy (some v) then v else d
  | none => d

/-! # Domain data model (`src/types/patient.ts`) -/

/-- Italian triage levels (`TRIAGE_LEVELS`). -/
inductive TriageLevel where
  | rosso | arancione | azzurro | verde | bianco
deriving DecidableEq

/-- Wire string of a triage level. -/
def TriageLevel.toStr : TriageLevel → List Char
  | .rosso => "rosso".data
  | .arancione => "arancione".data
  | .azzurro => "azzurro".data
  | .verde => "verde".data
  | .bianco => "bianco".data

/-- Common comorbidity flags (`COMORBIDITIES`). -/
inductive Comorbidity where
  | bpco | irc | dm2 | ipa | cic | fa
deriving DecidableEq

/-- Wire string of a comorbidity flag. -/
def Comorbidity.toStr : Comorbidity → List Char
  | .bpco => "BPCO".data
  | .irc => "IRC".data
  | .dm2 => "DM2".data
  | .ipa => "IPA".data
  | .cic => "CIC".data
  | .fa => "FA".data

/-- Possible outcomes for an ER visit (`ESITI`). -/
inductive Esito where
  | d | ob | obd | obr | r
deriving DecidableEq

/-- Wire string of an outcome. -/
def Esito.toStr : Esito → List Char
  | .d => "D".data
  | .ob => "OB".data
  | .obd => "OB/D".data
  | .obr => "OB/R".data
  | .r => "R".data

/-- Pending exam/request kinds (`PENDING_TYPES`). -/
inductive PendingType where
  | lab | imaging | consulenza | postoLetto
deriving DecidableEq

/-- Wire string of a pending exam kind. -/
def PendingType.toStr : PendingType → List Char
  | .lab => "lab".data
  | .imaging => "imaging".data
  | .consulenza => "consulenza".data
  | .postoLetto => "postoLetto".data

/-- Vault A patient identity (`interface PatientIdentity`).  The `area` field
is a preset or custom string, or null. -/
structure PatientIdentity where
  name : List Char
  age : Option Int
  bedNumber : List Char
  admissionDate : List Char
  triage : TriageLevel
  area : Option (List Char)
  comorbidities : List Comorbidity
  allergico : Bool
  sociale : Bool
  esito : Option Esito

/-- Vault B clinical record (`interface ClinicalData`). -/
structure ClinicalData where
  situation : List Char
  background : List Char
  assessment : List Char
  recommendation : List Char
  pendingExams : List PendingType
  timestamp : List Char

/-- Multi-patient transfer payload (`interface MultiPartPayload`). -/
structure MultiPartPayload where
  patients : List (PatientIdentity × ClinicalData)
  sessionToken : List Char
  timestamp : List Char

/-- Runtime JSON object representing a `PatientIdentity` record. -/
def identityToJson (pid : PatientIdentity) : Json :=
  .obj (JsonKVs.ofList [
    ("name".data, .str pid.name),
    ("age".data, match pid.age with | some a => .num a | none => .null),
    ("bedNumber".data, .str pid.bedNumber),
    ("admissionDate".data, .str pid.admissionDate),
    ("triage".data, .str pid.triage.toStr),
    ("area".data, match pid.area with | some s => .str s | none => .null),
    ("comorbidities".data,
      .arr (JsonList.ofList (pid.comorbidities.map (fun c => .str c.toStr)))),
    ("allergico".data, .bool pid.allergico),
    ("sociale".data, .bool pid.sociale),
    ("esito".data, match pid.esito with | some e => .str e.toStr | none => .null)])

/-- Runtime JSON object representing a `ClinicalData` record. -/
def clinicalToJson (cd : ClinicalData) : Json :=
  .obj (JsonKVs.ofList [
    ("situation".data, .str cd.situation),
    ("background".data, .str cd.background),
    ("assessment".data, .str cd.assessment),
    ("recommendation".data, .str cd.recommendation),
    ("pendingExams".data,
      .arr (JsonList.ofList (cd.pendingExams.map (fun p => .str p.toStr)))),
    ("timestamp".data, .str cd.timestamp)])

/-- Runtime JSON object for one `{identity, clinical}` entry of the payload. -/
def patientToJson (pr : PatientIdentity × ClinicalData) : Json :=
  .obj (JsonKVs.ofList [
    ("identity".data, identityToJson pr.1),
    ("clinical".data, clinicalToJson pr.2)])

/-- Runtime JSON object representing a `MultiPartPayload` record, with the
field order of the object literal constructed in `BulkHandoverModal`. -/
def payloadToJson (p : MultiPartPayload) : Json :=
  .obj (JsonKVs.ofList [
    ("patients".data, .arr (JsonList.ofList (p.patients.map patientToJson))),
    ("sessionToken".data, .str p.sessionToken),
    ("timestamp".data, .str p.timestamp)])

/-! # Compression codec model (`lz-string`, external dependency) -/

/-- Modelled from the spec: `compressToBase64` of the external `lz-string`
library.  Per §4.1 the codec is an opaque reversible text transform whose only
relied-upon property is `decompress (compress x) = x`; it is modelled as
tagging the text with a marker character. -/
def compressToBase64 (s : List Char) : List Char := 'Z' :: s

/-- Modelled from the spec: `decompressFromBase64` of the external `lz-string`
library; fails (JavaScript `null`) on input the codec did not produce. -/
def decompressFromBase64 (s : List Char) : Option (List Char) :=
  match s with
  | 'Z' :: rest => some rest
  | _ => none

/-! # Multipart QR protocol (`src/lib/qr-multipart.ts`) -/

/-- Max chars per QR chunk (`MAX_CHUNK_SIZE`). -/
def MAX_CHUNK_SIZE : Nat := 900

/-- AcuteHandoff protocol marker (`PROTOCOL_PREFIX`, the string `"AH:"`). -/
def protocolMarker : List Char := "AH:".data

/-- A parsed QR chunk (`interface QRChunk`). -/
structure QRChunk where
  index : Nat
  total : Nat
  data : List Char
deriving DecidableEq, Repr

/-- Embedding of `encodeMultiPartPayload`: stringify, compress, and either
emit a single `AH:1:1:` chunk or slice into `ceil(len / 890)` chunks. -/
def encodeMultiPartPayload (payload : MultiPartPayload) : Except (List Char) (List (List Char)) :=
  let json := jsonStringify (payloadToJson payload)
  let compressed := compressToBase64 json
  if compressed = [] then .error "Compression failed".data
  else if compressed.length + 10 ≤ MAX_CHUNK_SIZE then
    .ok [protocolMarker ++ '1' :: ':' :: '1' :: ':' :: compressed]
  else
    let chunkDataSize := MAX_CHUNK_SIZE - 10
    let totalChunks := (compressed.length + chunkDataSize - 1) / chunkDataSize
    .ok ((List.range totalChunks).map (fun i =>
      let start := i * chunkDataSize
      let stop := min (start + chunkDataSize) compressed.length
      let chunkData := (compressed.take stop).drop start
      protocolMarker ++ toDecimal (i + 1) ++ ':' :: toDecimal totalChunks ++ ':' :: chunkData))

/-- JavaScript `indexOf(c, start)` on a string: first occurrence at or after
`start`, `none` standing for `-1`. -/
def jsIndexOfFrom (c : Char) (l : List Char) (start : Nat) : Option Nat :=
  match (l.drop start).findIdx? (· = c) with
  | some k => some (start + k)
  | none => none

/-- Whether a character is JavaScript whitespace (for `parseInt` trimming). -/
def isSpaceChar (c : Char) : Bool := c = ' ' || c = '\t' || c = '\n' || c = '\r'

/-- JavaScript `parseInt(s, 10)`: skip leading whitespace, optional sign,
value of the longest digit prefix; `none` stands for `NaN`. -/
def jsParseInt (l : List Char) : Option Int :=
  match l.dropWhile isSpaceChar with
  | '-' :: r =>
    let (ds, _) := takeDigits r
    if ds = [] then none else some (-(digitsToNat ds : Int))
  | '+' :: r =>
    let (ds, _) := takeDigits r
    if ds = [] then none else some (digitsToNat ds : Int)
  | r =>
    let (ds, _) := takeDigits r
    if ds = [] then none else some (digitsToNat ds : Int)

/-- Embedding of `parseQRChunk`: recognize the marker, locate the two `':'`
separators, parse `index`/`total`, and validate `1 ≤ index ≤ total`. -/
def parseQRChunk (raw : List Char) : Option QRChunk :=
  if protocolMarker.isPrefixOf raw then
    let content := raw.drop protocolMarker.length
    match jsIndexOfFrom ':' content 0 with
    | none => none
    | some firstColon =>
      match jsIndexOfFrom ':' content (firstColon + 1) with
      | none => none
      | some secondColon =>
        let idxStr := content.take firstColon
        let totStr := (content.take secondColon).drop (firstColon + 1)
        let data := content.drop (secondColon + 1)
        match jsParseInt idxStr, jsParseInt totStr with
        | some index, some total =>
          if index < 1 ∨ total < index then none
          else some ⟨index.toNat, total.toNat, data⟩
        | _, _ => none
  else none

/-- Stable insertion of a chunk into a list sorted by ascending index;
equal indices keep the earlier element first. -/
def insertByIndex (c : QRChunk) : List QRChunk → List QRChunk
  | [] => [c]
  | d :: ds => if d.index ≤ c.index then d :: insertByIndex c ds else c :: d :: ds

/-- Embedding of `[...chunks].sort((a, b) => a.index - b.index)`: JavaScript
`Array.prototype.sort` is stable, so it computes the unique stable ascending
arrangement, here realized by insertion sort. -/
def sortByIndex (l : List QRChunk) : List QRChunk :=
  l.foldl (fun acc c => insertByIndex c acc) []

/-- The verification loop of `decodeMultiPartPayload`: `sorted[i].index` must
be `i + 1` for every position. -/
def indicesAscendingFrom : Nat → List QRChunk → Bool
  | _, [] => true
  | i, c :: cs => c.index == i + 1 && indicesAscendingFrom (i + 1) cs

/-- Embedding of `decodeMultiPartPayload`: check the chunk count against the
first chunk's `total`, check the sorted index sequence, join the data fields,
decompress, and `JSON.parse` the result. -/
def decodeMultiPartPayload (chunks : List QRChunk) : Option Json :=
  match chunks with
  | [] => none
  | c0 :: _ =>
    let total := c0.total
    let sorted := sortByIndex chunks
    if sorted.length ≠ total then none
    else if ¬ indicesAscendingFrom 0 sorted then none
    else
      let compressed := (sorted.map (fun c => c.data)).flatten
      match decompressFromBase64 compressed with
      | none => none
      | some json => if json = [] then none else jsonParse json

/-! # Scan aggregator (`QRScanner.handleScan`) -/

/-- Scanner accumulation state: the `chunks` map (insertion-ordered, keyed by
index, as a JavaScript `Map`), `totalChunks`, `lastScanned` and `error`. -/
structure ScanState where
  chunks : List (Nat × QRChunk)
  totalChunks : Option Nat
  lastScanned : Option (List Char)
  error : Option (List Char)

/-- Scanner state when scanning starts (`startScanning` resets everything). -/
def initialScanState : ScanState := ⟨[], none, none, none⟩

/-- JavaScript `Map.set`: overwrite an existing key in place (preserving
insertion order), otherwise append. -/
def mapSet (m : List (Nat × QRChunk)) (k : Nat) (v : QRChunk) : List (Nat × QRChunk) :=
  if m.any (fun kv => kv.1 = k) then
    m.map (fun kv => if kv.1 = k then (k, v) else kv)
  else m ++ [(k, v)]

/-- Scanner error message for a frame that is neither a chunk nor legacy JSON. -/
def qrInvalidMsg : List Char := "QR non valido".data

/-- Scanner error message for a complete chunk set that fails to decode. -/
def decodeFailMsg : List Char := "Errore decodifica dati".data

/-- In-memory upgrade of a legacy single-patient JSON object to a one-element
multipart payload, with `sessionToken` defaulting to `''` and `timestamp`
defaulting to the current time `now`. -/
def legacyUpgrade (legacy : Json) (now : List Char) : Json :=
  .obj (JsonKVs.ofList [
    ("patients".data, .arr (JsonList.ofList [
      .obj (JsonKVs.ofList [
        ("identity".data, (jsGetField legacy "identity".data).getD .null),
        ("clinical".data, (jsGetField legacy "clinical".data).getD .null)])])),
    ("sessionToken".data, jsOr (jsGetField legacy "sessionToken".data) (.str [])),
    ("timestamp".data, jsOr (jsGetField legacy "timestamp".data) (.str now))])

/-- Embedding of the `handleScan` callback.  `now` is the external clock
reading used when a legacy payload lacks a timestamp.  The second component
is the payload delivered to `onComplete`, if this scan completed the
transfer (after which scanning stops). -/
def handleScan (now : List Char) (st : ScanState) (raw : List Char) : ScanState × Option Json :=
  if st.lastScanned = some raw then (st, none)
  else
    let st1 : ScanState := { st with lastScanned := some raw, error := none }
    match parseQRChunk raw with
    | none =>
      (match jsonParse raw with
       | none => ({ st1 with error := some qrInvalidMsg }, none)
       | some legacy =>
         match legacy with
         | .null => ({ st1 with error := some qrInvalidMsg }, none)
         | _ =>
           if jsTruthy (jsGetField legacy "identity".data)
              && jsTruthy (jsGetField legacy "clinical".data) then
             (st1, some (legacyUpgrade legacy now))
           else (st1, none))
    | some chunk =>
      let st2 : ScanState := { st1 with totalChunks := some chunk.total }
      let next := mapSet st2.chunks chunk.index chunk
      if next.length = chunk.total then
        match decodeMultiPartPayload (next.map (fun kv => kv.2)) with
        | some payload => ({ st2 with chunks := next }, some payload)
        | none => ({ st2 with chunks := next, error := some decodeFailMsg }, none)
      else ({ st2 with chunks := next }, none)

/-- Feed raw scan values to the aggregator until the first completion;
`some payload` is reaching `Complete`. -/
def runScans (now : List Char) : ScanState → List (List Char) → Option Json
  | _, [] => none
  | st, raw :: rest =>
    match handleScan now st raw with
    | (_, some p) => some p
    | (st2, none) => runScans now st2 rest

/-- State after feeding a sequence of raw scan values (ignoring completion),
for stating reachable-state invariants. -/
def foldScans (now : List Char) (st : ScanState) (l : List (List Char)) : ScanState :=
  l.foldl (fun s raw => (handleScan now s raw).1) st

/-- Invariant of reachable scanner states, relative to a uniform total `T`:
distinct keys, all keyed entries within `1..T`, and `totalChunks` unset or
equal to `T`. -/
def ScanInv (T : Nat) (st : ScanState) : Prop :=
  (st.chunks.map Prod.fst).Nodup ∧
  (∀ kv ∈ st.chunks, 1 ≤ kv.1 ∧ kv.1 ≤ T) ∧
  (st.totalChunks = none ∨ st.totalChunks = some T)

/-- A scanned string that neither parses as a protocol chunk nor passes the
legacy single-patient check: feeding it to the scanner can only set
`lastScanned` and `error`. -/
def GarbageScan (raw : List Char) : Prop :=
  parseQRChunk raw = none ∧
  ∀ j, jsonParse raw = some j →
    (jsTruthy (jsGetField j ("identity".data))
      && jsTruthy (jsGetField j ("clinical".data))) = false

/-! # Manual paste import (`BulkHandoverModal.handleManualPaste`) -/

/-- JavaScript `String.prototype.trim`. -/
def jsTrim (l : List Char) : List Char :=
  ((l.dropWhile isSpaceChar).reverse.dropWhile isSpaceChar).reverse

/-- String payload of a JSON value, when it is a string. -/
def Json.strVal? : Json → Option (List Char)
  | .str s => some s
  | _ => none

/-- Embedding of `handleManualPaste`: try a JSON array of encoded chunk
strings, else fall back to the legacy single-patient object; the result is
the payload passed to `onReceive`, or `none` when nothing is imported
(empty input, missing receiver id, or unrecognized format). -/
def handleManualPaste (pasted receiverId now : List Char) : Option Json :=
  if jsTrim pasted = [] then none
  else if jsTrim receiverId = [] then none
  else
    match jsonParse pasted with
    | none => none
    | some j =>
      let legacyPath : Json → Option Json := fun legacy =>
        match legacy with
        | .null => none
        | _ =>
          if jsTruthy (jsGetField legacy "identity".data)
             && jsTruthy (jsGetField legacy "clinical".data) then
            some (legacyUpgrade legacy now)
          else none
      match j with
      | .arr elems =>
        if (elems.toList.all fun e => (e.strVal?).isSome) then
          let chunkStrs := elems.toList.filterMap Json.strVal?
          let parsedChunks := (chunkStrs.map parseQRChunk).filterMap id
          match decodeMultiPartPayload parsedChunks with
          | some payload => some payload
          | none => legacyPath j
        else none
      | _ => legacyPath j

/-! # Validation layer (`src/types/patient-schemas.ts`, zod) -/

/-- Zod `z.string().max(n)`. -/
def zString (max : Nat) (j : Json) : Option (List Char) :=
  match j with
  | .str s => if s.length ≤ max then some s else none
  | _ => none

/-- Zod `z.boolean()`. -/
def zBool : Json → Option Bool
  | .bool b => some b
  | _ => none

/-- Zod `z.number().int().min(0).max(150).nullable()` (the `age` field). -/
def zAgeField : Json → Option (Option Int)
  | .null => some none
  | .num i => if 0 ≤ i ∧ i ≤ 150 then some (some i) else none
  | _ => none

/-- Decode the wire string of a triage level (`z.enum(TRIAGE_LEVELS)`). -/
def TriageLevel.ofStr? (s : List Char) : Option TriageLevel :=
  if s = "rosso".data then some .rosso
  else if s = "arancione".data then some .arancione
  else if s = "azzurro".data then some .azzurro
  else if s = "verde".data then some .verde
  else if s = "bianco".data then some .bianco
  else none

/-- Decode the wire string of a comorbidity (`z.enum(COMORBIDITIES)`). -/
def Comorbidity.ofStr? (s : List Char) : Option Comorbidity :=
  if s = "BPCO".data then some .bpco
  else if s = "IRC".data then some .irc
  else if s = "DM2".data then some .dm2
  else if s = "IPA".data then some .ipa
  else if s = "CIC".data then some .cic
  else if s = "FA".data then some .fa
  else none

/-- Decode the wire string of an outcome (`z.enum(ESITI)`). -/
def Esito.ofStr? (s : List Char) : Option Esito :=
  if s = "D".data then some .d
  else if s = "OB".data then some .ob
  else if s = "OB/D".data then some .obd
  else if s = "OB/R".data then some .obr
  else if s = "R".data then some .r
  else none

/-- Decode the wire string of a pending exam kind (`z.enum(PENDING_TYPES)`). -/
def PendingType.ofStr? (s : List Char) : Option PendingType :=
  if s = "lab".data then some .lab
  else if s = "imaging".data then some .imaging
  else if s = "consulenza".data then some .consulenza
  else if s = "postoLetto".data then some .postoLetto
  else none

/-- Zod enum applied to a JSON value: must be a string in the closed set. -/
def zEnum {α : Type} (ofStr : List Char → Option α) (j : Json) : Option α :=
  match j with
  | .str s => ofStr s
  | _ => none

/-- Zod nullable enum (`z.enum(ESITI).nullable()`). -/
def zEsitoNullable : Json → Option (Option Esito)
  | .null => some none
  | .str s => (Esito.ofStr? s).map some
  | _ => none

/-- Elementwise parse of a JSON array (`z.array(elem)`): fails if any element
fails. -/
def zArrayWith {α : Type} (p : Json → Option α) : JsonList → Option (List α)
  | .nil => some []
  | .cons v tl =>
    match p v, zArrayWith p tl with
    | some a, some l => some (a :: l)
    | _, _ => none

/-- Zod `z.array(elem)` on a JSON value. -/
def zArray {α : Type} (p : Json → Option α) (j : Json) : Option (List α) :=
  match j with
  | .arr l => zArrayWith p l
  | _ => none

/-- Output type of `PatientIdentitySchema` (zod strips unknown keys, and the
schema has no `area` field). -/
structure IdentityParsed where
  name : List Char
  age : Option Int
  bedNumber : List Char
  admissionDate : List Char
  triage : TriageLevel
  comorbidities : List Comorbidity
  allergico : Bool
  sociale : Bool
  esito : Option Esito

/-- Embedding of `PatientIdentitySchema.safeParse`. -/
def patientIdentitySchema_safeParse (j : Json) : Option IdentityParsed :=
  match j with
  | .obj _ => do
    let name ← (jsGetField j "name".data).bind (zString 200)
    let age ← (jsGetField j "age".data).bind zAgeField
    let bedNumber ← (jsGetField j "bedNumber".data).bind (zString 50)
    let admissionDate ← (jsGetField j "admissionDate".data).bind (zString 50)
    let triage ← (jsGetField j "triage".data).bind (zEnum TriageLevel.ofStr?)
    let comorbidities ← (jsGetField j "comorbidities".data).bind
      (zArray (zEnum Comorbidity.ofStr?))
    let allergico ← (jsGetField j "allergico".data).bind zBool
    let sociale ← (jsGetField j "sociale".data).bind zBool
    let esito ← (jsGetField j "esito".data).bind zEsitoNullable
    pure ⟨name, age, bedNumber, admissionDate, triage, comorbidities, allergico, sociale, esito⟩
  | _ => none

/-- Embedding of `ClinicalDataSchema.safeParse`. -/
def clinicalDataSchema_safeParse (j : Json) : Option ClinicalData :=
  match j with
  | .obj _ => do
    let situation ← (jsGetField j "situation".data).bind (zString 10000)
    let background ← (jsGetField j "background".data).bind (zString 10000)
    let assessment ← (jsGetField j "assessment".data).bind (zString 10000)
    let recommendation ← (jsGetField j "recommendation".data).bind (zString 10000)
    let pendingExams ← (jsGetField j "pendingExams".data).bind
      (zArray (zEnum PendingType.ofStr?))
    let timestamp ← (jsGetField j "timestamp".data).bind (zString 100)
    pure ⟨situation, background, assessment, recommendation, pendingExams, timestamp⟩
  | _ => none

/-- Embedding of the element schema of `MultiPartPayloadSchema.patients`:
`z.object({identity: ..., clinical: ...})`. -/
def patientEntry_safeParse (j : Json) : Option (IdentityParsed × ClinicalData) :=
  match j with
  | .obj _ => do
    let i ← (jsGetField j "identity".data).bind patientIdentitySchema_safeParse
    let c ← (jsGetField j "clinical".data).bind clinicalDataSchema_safeParse
    pure (i, c)
  | _ => none

/-- Output type of `MultiPartPayloadSchema`. -/
structure ValidatedMultiPartPayload where
  patients : List (IdentityParsed × ClinicalData)
  sessionToken : List Char
  timestamp : List Char

/-- Embedding of `MultiPartPayloadSchema.safeParse`: the patients array
(at most 100 entries, each validating), `sessionToken` and `timestamp`. -/
def multiPartPayloadSchema_safeParse (j : Json) : Option ValidatedMultiPartPayload :=
  match j with
  | .obj _ => do
    let patients ← (jsGetField j "patients".data).bind
      (fun pj => (zArray patientEntry_safeParse pj).bind
        (fun ps => if ps.length ≤ 100 then some ps else none))
    let sessionToken ← (jsGetField j "sessionToken".data).bind (zString 100)
    let timestamp ← (jsGetField j "timestamp".data).bind (zString 100)
    pure ⟨patients, sessionToken, timestamp⟩
  | _ => none

/-- Modelled from the spec: `receiveBulkHandover` (declared in the patient
context and called from `PatientList`, but its body is not among the provided
sources).  Per §4.6 and the validation-atomicity property, it schema-validates
the received payload with `MultiPartPayloadSchema` and atomically rejects the
whole payload on failure, admitting no patient entry into local state; on
success all validated entries are appended. -/
def receiveBulkHandover (payload : Json) (st : List (IdentityParsed × ClinicalData)) :
    List (IdentityParsed × ClinicalData) :=
  match multiPartPayloadSchema_safeParse payload with
  | some v => st ++ v.patients
  | none => st

/-! # Encrypted storage (`src/lib/storage.ts` and the crypto module) -/

/-- Direction of a handover audit event. -/
inductive Direction where
  | sent | received
deriving DecidableEq

/-- Wire string of a direction. -/
def Direction.toStr : Direction → List Char
  | .sent => "sent".data
  | .received => "received".data

/-- Decode the wire string of a direction. -/
def Direction.ofStr? (s : List Char) : Option Direction :=
  if s = "sent".data then some .sent
  else if s = "received".data then some .received
  else none

/-- Audit log entry (`interface HandoverLogEntry`): only a content hash,
never raw patient data. -/
structure HandoverLogEntry where
  hash : List Char
  timestamp : List Char
  receiverId : List Char
  direction : Direction

/-- Modelled from the spec: `HandoverLogEntrySchema`, which is imported by the
storage module but is not among the provided sources.  Per §6 the persisted
shape is `{hash, timestamp, receiverId, direction ∈ {sent, received}}`, and
per §4.6 the string fields are length-bounded. -/
def handoverLogEntrySchema_safeParse (j : Json) : Option HandoverLogEntry :=
  match j with
  | .obj _ => do
    let hash ← (jsGetField j "hash".data).bind (zString 1000)
    let timestamp ← (jsGetField j "timestamp".data).bind (zString 1000)
    let receiverId ← (jsGetField j "receiverId".data).bind (zString 1000)
    let direction ← (jsGetField j "direction".data).bind (zEnum Direction.ofStr?)
    pure ⟨hash, timestamp, receiverId, direction⟩
  | _ => none

/-- Runtime JSON object representing an audit log entry. -/
def entryToJson (e : HandoverLogEntry) : Json :=
  .obj (JsonKVs.ofList [
    ("hash".data, .str e.hash),
    ("timestamp".data, .str e.timestamp),
    ("receiverId".data, .str e.receiverId),
    ("direction".data, .str e.direction.toStr)])

/-- Runtime JSON array representing an audit log. -/
def auditToJson (entries : List HandoverLogEntry) : Json :=
  .arr (JsonList.ofList (entries.map entryToJson))

/-- Browser storage and session state seen by the storage module: the
`localStorage` slots used by the claims and the `sessionStorage`-held
encryption key (one per process lifetime). -/
structure StorageState where
  clinicalStore : Option (List Char)
  auditStore : Option (List Char)
  sessionKey : Option (List Char)

/-- Embedding of `getOrCreateKey`: return the session key, generating (and
persisting in session storage) a fresh one on first use; `fresh` is the
external key-generation oracle. -/
def getOrCreateKey (fresh : List Char) (st : StorageState) : List Char × StorageState :=
  match st.sessionKey with
  | some k => (k, st)
  | none => (fresh, { st with sessionKey := some fresh })

/-- Modelled from the source's `encryptData` (AES-GCM via WebCrypto, an
external primitive): ciphertext is modelled as the plaintext tagged with the
session key, preserving exactly the properties the callers rely on —
decryption with the same key restores the plaintext, and decryption of
anything not produced with that key fails. -/
def encryptData (fresh data : List Char) (st : StorageState) : List Char × StorageState :=
  let (k, st2) := getOrCreateKey fresh st
  ('E' :: k ++ ':' :: data, st2)

/-- Modelled from the source's `decryptData` (AES-GCM via WebCrypto):
`none` stands for the authentication-failure exception thrown on input that
was not encrypted under the session key. -/
def decryptData (fresh cipher : List Char) (st : StorageState) :
    Option (List Char) × StorageState :=
  let (k, st2) := getOrCreateKey fresh st
  if ('E' :: k ++ [':']).isPrefixOf cipher then
    (some (cipher.drop (k.length + 2)), st2)
  else (none, st2)

/-- Embedding of `saveClinicalData`: encrypt the JSON text and store it. -/
def saveClinicalData (fresh : List Char) (d : ClinicalData) (st : StorageState) : StorageState :=
  let (c, st2) := encryptData fresh (jsonStringify (clinicalToJson d)) st
  { st2 with clinicalStore := some c }

/-- Embedding of `loadClinicalData`: read, decrypt, `JSON.parse`, validate
with `ClinicalDataSchema`; any failure yields `none`. -/
def loadClinicalData (fresh : List Char) (st : StorageState) :
    Option ClinicalData × StorageState :=
  match st.clinicalStore with
  | none => (none, st)
  | some enc =>
    let (dec, st2) := decryptData fresh enc st
    match dec with
    | none => (none, st2)
    | some s =>
      match jsonParse s with
      | none => (none, st2)
      | some raw =>
        match clinicalDataSchema_safeParse raw with
        | none => (none, st2)
        | some d => (some d, st2)

/-- Embedding of `getAuditLog`: try the encrypted path (decrypt, parse,
validate); if decryption or the parse of the decrypted text throws, fall back
to parsing the stored blob as legacy unencrypted JSON, and on a successful
legacy parse immediately re-persist the validated entries encrypted. -/
def getAuditLog (fresh : List Char) (st : StorageState) :
    List HandoverLogEntry × StorageState :=
  match st.auditStore with
  | none => ([], st)
  | some data =>
    let (dec, st2) := decryptData fresh data st
    let fallback : StorageState → List HandoverLogEntry × StorageState := fun st3 =>
      match jsonParse data with
      | some raw =>
        match zArray handoverLogEntrySchema_safeParse raw with
        | some entries =>
          let (enc, st4) := encryptData fresh (jsonStringify (auditToJson entries)) st3
          (entries, { st4 with auditStore := some enc })
        | none => ([], st3)
      | none => ([], st3)
    match dec with
    | some s =>
      match jsonParse s with
      | some raw =>
        (match zArray handoverLogEntrySchema_safeParse raw with
         | some entries => (entries, st2)
         | none => ([], st2))
      | none => fallback st2
    | none => fallback st2

/-! # Decimal and JSON round-trip lemmas -/

theorem toDecimalAux_zero (n : Nat) : toDecimalAux 0 n = [] := rfl

theorem toDecimalAux_succ (f n : Nat) :
    toDecimalAux (f + 1) n
      = if n = 0 then [] else toDecimalAux f (n / 10) ++ [digitChar (n % 10)] := rfl
theorem digitChar_toNat {d : Nat} (h : d < 10) : (digitChar d).toNat = 48 + d := by
  interval_cases d <;> decide

theorem isDigit_digitChar {d : Nat} (h : d < 10) : isDigit (digitChar d) = true := by
  interval_cases d <;> decide

theorem toDecimalAux_digits : ∀ fuel n, ∀ c ∈ toDecimalAux fuel n, isDigit c = true := by
  intro fuel
  induction fuel with
  | zero => intro n c hc; simp [toDecimalAux_zero] at hc
  | succ f ih =>
    intro n c hc
    match n, hc with
    | 0, hc => simp [toDecimalAux_succ] at hc
    | m+1, hc =>
      rw [toDecimalAux_succ, if_neg (by omega)] at hc
      rcases List.mem_append.mp hc with h1 | h2
      · exact ih _ c h1
      · simp at h2
        subst h2
        exact isDigit_digitChar (Nat.mod_lt _ (by omega))

theorem toDecimal_digits (n : Nat) : ∀ c ∈ toDecimal n, isDigit c = true := by
  unfold toDecimal
  split
  · intro c hc; simp at hc; subst hc; decide
  · exact toDecimalAux_digits n n

theorem toDecimal_ne_nil (n : Nat) : toDecimal n ≠ [] := by
  unfold toDecimal
  split
  · simp
  · rename_i h
    match n, h with
    | m+1, _ =>
      rw [toDecimalAux_succ, if_neg (by omega)]
      simp

theorem foldl_toDecimalAux : ∀ fuel n acc, n ≤ fuel →
    List.foldl (fun a c => 10 * a + (c.toNat - 48)) acc (toDecimalAux fuel n)
      = acc * 10 ^ (toDecimalAux fuel n).length + n := by
  intro fuel
  induction fuel with
  | zero => intro n acc h; interval_cases n; simp [toDecimalAux_zero]
  | succ f ih =>
    intro n acc h
    match n with
    | 0 => simp [toDecimalAux_succ]
    | m+1 =>
      rw [toDecimalAux_succ, if_neg (by omega)]
      rw [List.foldl_append, List.length_append]
      have hdiv : (m+1) / 10 ≤ f := by
        have := Nat.div_lt_self (show 0 < m+1 by omega) (show 1 < 10 by omega)
        omega
      rw [ih _ acc hdiv]
      simp only [List.foldl_cons, List.foldl_nil, List.length_cons, List.length_nil]
      rw [digitChar_toNat (Nat.mod_lt _ (by omega))]
      have : 48 + (m+1) % 10 - 48 = (m+1) % 10 := by omega
      rw [this]
      have hmod := Nat.div_add_mod (m+1) 10
      ring_nf
      omega

theorem digitsToNat_toDecimal (n : Nat) : digitsToNat (toDecimal n) = n := by
  unfold toDecimal digitsToNat
  split
  · rename_i h; subst h; decide
  · rw [foldl_toDecimalAux n n 0 (le_refl n)]; simp

theorem takeDigits_append {d : List Char} (hd : ∀ c ∈ d, isDigit c = true)
    {c : Char} (hc : isDigit c = false) (r : List Char) :
    takeDigits (d ++ c :: r) = (d, c :: r) := by
  induction d with
  | nil => simp [takeDigits, hc]
  | cons x xs ih =>
    have hx : isDigit x = true := hd x (by simp)
    simp only [List.cons_append, takeDigits, hx, if_pos, List.append_eq]
    rw [ih (fun c hc2 => hd c (by simp [hc2]))]

theorem parseNatColon_toDecimal (n : Nat) (r : List Char) :
    parseNatColon (toDecimal n ++ ':' :: r) = some (n, r) := by
  unfold parseNatColon
  rw [takeDigits_append (toDecimal_digits n) (by decide) r]
  simp [toDecimal_ne_nil n, digitsToNat_toDecimal n]

theorem parseJ_str (s : List Char) (f : Nat) (r : List Char) :
    parseJ (f + 1) (jsonStringify (.str s) ++ r) = some (.str s, r) := by
  show parseJ (f + 1) (strSer s ++ r) = some (.str s, r)
  unfold strSer
  have e : ('s' :: toDecimal s.length ++ ':' :: s) ++ r
       = 's' :: (toDecimal s.length ++ ':' :: (s ++ r)) := by simp
  rw [e, parseJ, parseNatColon_toDecimal s.length (s ++ r)]
  simp only [List.length_append, if_pos (by omega : s.length ≤ s.length + r.length)]
  rw [List.take_left, List.drop_left]

theorem parseJ_null (f : Nat) (r : List Char) :
    parseJ (f + 1) (jsonStringify .null ++ r) = some (.null, r) := by
  rw [jsonStringify]; rfl

theorem parseJ_bool (b : Bool) (f : Nat) (r : List Char) :
    parseJ (f + 1) (jsonStringify (.bool b) ++ r) = some (.bool b, r) := by
  cases b <;> (rw [jsonStringify]; rfl)

theorem parseJ_num (i : Int) (f : Nat) (r : List Char) :
    parseJ (f + 1) (jsonStringify (.num i) ++ r) = some (.num i, r) := by
  rw [jsonStringify]
  obtain ⟨d, ds, hdd⟩ := List.exists_cons_of_ne_nil (toDecimal_ne_nil i.natAbs)
  have hdig : digitsToNat (d :: ds) = i.natAbs := by
    rw [← hdd]; exact digitsToNat_toDecimal i.natAbs
  have hds : ∀ c ∈ d :: ds, isDigit c = true := by
    rw [← hdd]; exact toDecimal_digits i.natAbs
  by_cases h : i < 0
  · rw [if_pos h]
    have e : ('i' :: '-' :: toDecimal i.natAbs) ++ [';'] ++ r
         = 'i' :: '-' :: ((d :: ds) ++ ';' :: r) := by simp [hdd]
    rw [e, parseJ]
    rw [takeDigits_append hds (by decide) r]
    simp only [hdig]
    have : -(i.natAbs : Int) = i := by omega
    rw [this]
  · rw [if_neg h]
    have e : ('i' :: toDecimal i.natAbs) ++ [';'] ++ r
         = 'i' :: ((d :: ds) ++ ';' :: r) := by simp [hdd]
    rw [e, parseJ]
    · rw [takeDigits_append hds (by decide) r]
      simp only [hdig]
      have hcast : (i.natAbs : Int) = i := by omega
      rw [hcast]
    · intro r2 hcon
      simp only [List.cons_append, List.cons.injEq] at hcon
      have hd2 := hds d (by simp)
      rw [hcon.1] at hd2
      simp [isDigit] at hd2

theorem jsonListOfList_length (l : List Json) : (JsonList.ofList l).length = l.length := by
  induction l with
  | nil => rfl
  | cons v tl ih => simp [JsonList.ofList, JsonList.length, ih]

theorem jsonKVsOfList_length (l : List (List Char × Json)) :
    (JsonKVs.ofList l).length = l.length := by
  induction l with
  | nil => rfl
  | cons kv tl ih => simp [JsonKVs.ofList, JsonKVs.length, ih]

theorem jsonStringify_ne_nil (v : Json) : jsonStringify v ≠ [] := by
  cases v with
  | null => simp [jsonStringify]
  | bool b => cases b <;> simp [jsonStringify]
  | num i => simp [jsonStringify]
  | str s => simp [jsonStringify, strSer]
  | arr l => simp [jsonStringify]
  | obj l => simp [jsonStringify]

theorem jsonStringify_length_pos (v : Json) : 1 ≤ (jsonStringify v).length := by
  have := jsonStringify_ne_nil v
  cases h : jsonStringify v with
  | nil => exact absurd h this
  | cons c cs => simp

theorem parsesBack_null : ParsesBack .null := by
  intro f r hf
  simp only [jsonStringify, List.length_cons, List.length_nil] at hf
  obtain ⟨g, rfl⟩ : ∃ g, f = g + 1 := ⟨f - 1, by omega⟩
  exact parseJ_null g r

theorem parsesBack_bool (b : Bool) : ParsesBack (.bool b) := by
  intro f r hf
  have h1 : 1 ≤ f := le_trans (jsonStringify_length_pos _) hf
  obtain ⟨g, rfl⟩ : ∃ g, f = g + 1 := ⟨f - 1, by omega⟩
  exact parseJ_bool b g r

theorem parsesBack_num (i : Int) : ParsesBack (.num i) := by
  intro f r hf
  have h1 : 1 ≤ f := le_trans (jsonStringify_length_pos _) hf
  obtain ⟨g, rfl⟩ : ∃ g, f = g + 1 := ⟨f - 1, by omega⟩
  exact parseJ_num i g r

theorem parsesBack_str (s : List Char) : ParsesBack (.str s) := by
  intro f r hf
  have h1 : 1 ≤ f := le_trans (jsonStringify_length_pos _) hf
  obtain ⟨g, rfl⟩ : ∃ g, f = g + 1 := ⟨f - 1, by omega⟩
  exact parseJ_str s g r

theorem parseSeq_ofList (l : List Json) (h : ∀ v ∈ l, ParsesBack v) :
    ∀ f r, (stringifyList (JsonList.ofList l)).length < f →
      parseSeq f l.length (stringifyList (JsonList.ofList l) ++ r)
        = some (JsonList.ofList l, r) := by
  induction l with
  | nil =>
    intro f r hf
    obtain ⟨g, rfl⟩ : ∃ g, f = g + 1 := ⟨f - 1, by omega⟩
    simp [JsonList.ofList, stringifyList, parseSeq]
  | cons v tl ih =>
    intro f r hf
    simp only [JsonList.ofList, stringifyList, List.length_append] at hf ⊢
    obtain ⟨g, rfl⟩ : ∃ g, f = g + 1 := ⟨f - 1, by omega⟩
    have hv : ParsesBack v := h v (by simp)
    have htl1 : 1 ≤ (jsonStringify v).length := jsonStringify_length_pos v
    rw [List.length_cons, parseSeq, List.append_assoc]
    rw [hv g (stringifyList (JsonList.ofList tl) ++ r) (by omega)]
    dsimp only
    rw [ih (fun w hw => h w (by simp [hw])) g r (by omega)]

theorem parseKVs_ofList (l : List (List Char × Json)) (h : ∀ kv ∈ l, ParsesBack kv.2) :
    ∀ f r, (stringifyKVs (JsonKVs.ofList l)).length < f →
      parseKVs f l.length (stringifyKVs (JsonKVs.ofList l) ++ r)
        = some (JsonKVs.ofList l, r) := by
  induction l with
  | nil =>
    intro f r hf
    obtain ⟨g, rfl⟩ : ∃ g, f = g + 1 := ⟨f - 1, by omega⟩
    simp [JsonKVs.ofList, stringifyKVs, parseKVs]
  | cons kv tl ih =>
    intro f r hf
    simp only [JsonKVs.ofList, stringifyKVs, List.length_append] at hf ⊢
    obtain ⟨g, rfl⟩ : ∃ g, f = g + 1 := ⟨f - 1, by omega⟩
    have hstr : ParsesBack (.str kv.1) := parsesBack_str kv.1
    have hserk : jsonStringify (.str kv.1) = strSer kv.1 := rfl
    have hv : ParsesBack kv.2 := h kv (by simp)
    have h1 : 1 ≤ (jsonStringify kv.2).length := jsonStringify_length_pos kv.2
    have hk1 : 1 ≤ (strSer kv.1).length := by
      rw [← hserk]; exact jsonStringify_length_pos _
    rw [List.length_cons, parseKVs, List.append_assoc, List.append_assoc]
    rw [← hserk]
    rw [hstr g _ (by rw [hserk]; omega)]
    dsimp only
    rw [hv g _ (by omega)]
    dsimp only
    rw [ih (fun w hw => h w (by simp [hw])) g r (by omega)]

theorem parsesBack_arr (l : List Json) (h : ∀ v ∈ l, ParsesBack v) :
    ParsesBack (.arr (JsonList.ofList l)) := by
  intro f r hf
  rw [jsonStringify] at hf ⊢
  simp only [List.length_cons, List.length_append] at hf
  obtain ⟨g, rfl⟩ : ∃ g, f = g + 1 := ⟨f - 1, by omega⟩
  have e : ('a' :: toDecimal (JsonList.ofList l).length ++ ':' :: stringifyList (JsonList.ofList l)) ++ r
      = 'a' :: (toDecimal (JsonList.ofList l).length ++ ':' :: (stringifyList (JsonList.ofList l) ++ r)) := by
    simp
  rw [e, parseJ, parseNatColon_toDecimal]
  dsimp only
  rw [jsonListOfList_length]
  rw [parseSeq_ofList l h g r (by omega)]

theorem parsesBack_obj (l : List (List Char × Json)) (h : ∀ kv ∈ l, ParsesBack kv.2) :
    ParsesBack (.obj (JsonKVs.ofList l)) := by
  intro f r hf
  rw [jsonStringify] at hf ⊢
  simp only [List.length_cons, List.length_append] at hf
  obtain ⟨g, rfl⟩ : ∃ g, f = g + 1 := ⟨f - 1, by omega⟩
  have e : ('o' :: toDecimal (JsonKVs.ofList l).length ++ ':' :: stringifyKVs (JsonKVs.ofList l)) ++ r
      = 'o' :: (toDecimal (JsonKVs.ofList l).length ++ ':' :: (stringifyKVs (JsonKVs.ofList l) ++ r)) := by
    simp
  rw [e, parseJ, parseNatColon_toDecimal]
  dsimp only
  rw [jsonKVsOfList_length]
  rw [parseKVs_ofList l h g r (by omega)]

theorem jsonParse_stringify {v : Json} (h : ParsesBack v) :
    jsonParse (jsonStringify v) = some v := by
  unfold jsonParse
  have := h ((jsonStringify v).length + 1) [] (by omega)
  rw [List.append_nil] at this
  rw [this]

/-! # Round-trip of the payload representation -/

theorem parsesBack_optStrNull (o : Option (List Char)) :
    ParsesBack (match o with | some s => Json.str s | none => Json.null) := by
  cases o with
  | none => exact parsesBack_null
  | some s => exact parsesBack_str s

theorem parsesBack_strMap {α : Type} (g : α → List Char) (l : List α) :
    ∀ v ∈ l.map (fun c => Json.str (g c)), ParsesBack v := by
  intro v hv
  obtain ⟨c, _, rfl⟩ := List.mem_map.mp hv
  exact parsesBack_str (g c)

theorem parsesBack_identityToJson (pid : PatientIdentity) :
    ParsesBack (identityToJson pid) := by
  apply parsesBack_obj
  intro kv hkv
  simp only [List.mem_cons, List.not_mem_nil, or_false] at hkv
  rcases hkv with h|h|h|h|h|h|h|h|h|h <;> subst h <;> dsimp
  · exact parsesBack_str _
  · cases pid.age with
    | none => exact parsesBack_null
    | some a => exact parsesBack_num a
  · exact parsesBack_str _
  · exact parsesBack_str _
  · exact parsesBack_str _
  · exact parsesBack_optStrNull pid.area
  · exact parsesBack_arr _ (parsesBack_strMap _ _)
  · exact parsesBack_bool _
  · exact parsesBack_bool _
  · cases pid.esito with
    | none => exact parsesBack_null
    | some e => exact parsesBack_str _

theorem parsesBack_clinicalToJson (cd : ClinicalData) :
    ParsesBack (clinicalToJson cd) := by
  apply parsesBack_obj
  intro kv hkv
  simp only [List.mem_cons, List.not_mem_nil, or_false] at hkv
  rcases hkv with h|h|h|h|h|h <;> subst h <;> dsimp
  · exact parsesBack_str _
  · exact parsesBack_str _
  · exact parsesBack_str _
  · exact parsesBack_str _
  · exact parsesBack_arr _ (parsesBack_strMap _ _)
  · exact parsesBack_str _

theorem parsesBack_patientToJson (pr : PatientIdentity × ClinicalData) :
    ParsesBack (patientToJson pr) := by
  apply parsesBack_obj
  intro kv hkv
  simp only [List.mem_cons, List.not_mem_nil, or_false] at hkv
  rcases hkv with h|h <;> subst h <;> dsimp
  · exact parsesBack_identityToJson pr.1
  · exact parsesBack_clinicalToJson pr.2

theorem parsesBack_payloadToJson (P : MultiPartPayload) :
    ParsesBack (payloadToJson P) := by
  apply parsesBack_obj
  intro kv hkv
  simp only [List.mem_cons, List.not_mem_nil, or_false] at hkv
  rcases hkv with h|h|h <;> subst h <;> dsimp
  · apply parsesBack_arr
    intro v hv
    obtain ⟨pr, _, rfl⟩ := List.mem_map.mp hv
    exact parsesBack_patientToJson pr
  · exact parsesBack_str _
  · exact parsesBack_str _

/-! # Parsing of encoded chunk strings -/

theorem digit_ne_colon {c : Char} (h : isDigit c = true) : ¬(c = ':') := by
  intro hc
  subst hc
  simp [isDigit] at h

theorem space_toNat_lt {c : Char} (h : isSpaceChar c = true) : c.toNat < 48 := by
  simp only [isSpaceChar, Bool.or_eq_true, decide_eq_true_eq] at h
  rcases h with ((rfl | rfl) | rfl) | rfl <;> decide

theorem digit_not_space {c : Char} (h : isDigit c = true) : isSpaceChar c = false := by
  by_contra hc
  have h2 : isSpaceChar c = true := by
    cases hsp : isSpaceChar c with
    | false => exact absurd hsp hc
    | true => rfl
  have := space_toNat_lt h2
  simp only [isDigit, Bool.and_eq_true, decide_eq_true_eq] at h
  omega

theorem dropWhile_space_of_digits {l : List Char} (h : ∀ c ∈ l, isDigit c = true) :
    l.dropWhile isSpaceChar = l := by
  cases l with
  | nil => rfl
  | cons c cs =>
    rw [List.dropWhile_cons, digit_not_space (h c (by simp))]
    simp

theorem takeDigits_all {l : List Char} (h : ∀ c ∈ l, isDigit c = true) :
    takeDigits l = (l, []) := by
  induction l with
  | nil => rfl
  | cons c cs ih =>
    rw [takeDigits]
    rw [h c (by simp)]
    simp only [if_pos]
    rw [ih (fun d hd => h d (by simp [hd]))]

theorem jsParseInt_decimal (n : Nat) : jsParseInt (toDecimal n) = some (n : Int) := by
  obtain ⟨d, ds, hdd⟩ := List.exists_cons_of_ne_nil (toDecimal_ne_nil n)
  have hds : ∀ c ∈ d :: ds, isDigit c = true := by
    rw [← hdd]; exact toDecimal_digits n
  have hd : isDigit d = true := hds d (by simp)
  unfold jsParseInt
  rw [hdd, dropWhile_space_of_digits hds]
  split
  · rename_i r2 heq
    rw [List.cons.injEq] at heq
    rw [heq.1] at hd
    simp [isDigit] at hd
  · rename_i r2 heq
    rw [List.cons.injEq] at heq
    rw [heq.1] at hd
    simp [isDigit] at hd
  · rw [takeDigits_all hds]
    dsimp only
    rw [if_neg (by simp)]
    rw [← hdd, digitsToNat_toDecimal n]

theorem findIdx_colon_append {d : List Char} (hd : ∀ c ∈ d, isDigit c = true) :
    ∀ (rest : List Char) (i : Nat),
      List.findIdx? (fun c => c = ':') (d ++ ':' :: rest) i = some (i + d.length) := by
  induction d with
  | nil =>
    intro rest i
    simp [List.findIdx?_cons]
  | cons x xs ih =>
    intro rest i
    have hx : isDigit x = true := hd x (by simp)
    rw [List.cons_append, List.findIdx?_cons]
    rw [if_neg (by simp [digit_ne_colon hx])]
    rw [ih (fun c hc => hd c (by simp [hc])) rest (i + 1)]
    simp only [List.length_cons]
    congr 1
    omega

theorem jsIndexOfFrom_split {l : List Char} {start : Nat} {d rest : List Char}
    (hsplit : l.drop start = d ++ ':' :: rest) (hd : ∀ c ∈ d, isDigit c = true) :
    jsIndexOfFrom ':' l start = some (start + d.length) := by
  unfold jsIndexOfFrom
  rw [hsplit, findIdx_colon_append hd rest 0]
  simp

theorem parseQRChunk_encoded (i n : Nat) (d : List Char) (h1 : 1 ≤ i) (h2 : i ≤ n) :
    parseQRChunk (protocolMarker ++ toDecimal i ++ ':' :: toDecimal n ++ ':' :: d)
      = some ⟨i, n, d⟩ := by
  set content := toDecimal i ++ ':' :: toDecimal n ++ ':' :: d with hcontent
  have hraw : protocolMarker ++ toDecimal i ++ ':' :: toDecimal n ++ ':' :: d
      = protocolMarker ++ content := by simp [hcontent]
  rw [hraw]
  unfold parseQRChunk
  rw [if_pos (List.isPrefixOf_iff_prefix.mpr (List.prefix_append _ _))]
  rw [List.drop_left]
  dsimp only
  have hfst : jsIndexOfFrom ':' content 0 = some (toDecimal i).length := by
    have := @jsIndexOfFrom_split content 0 (toDecimal i)
      (toDecimal n ++ ':' :: d) (by simp [hcontent]) (toDecimal_digits i)
    simpa using this
  rw [hfst]
  dsimp only
  have epre : content = (toDecimal i ++ [':']) ++ (toDecimal n ++ ':' :: d) := by
    simp [hcontent]
  have hdrop1 : content.drop ((toDecimal i).length + 1) = toDecimal n ++ ':' :: d := by
    rw [epre, show (toDecimal i).length + 1 = (toDecimal i ++ [':']).length by simp]
    exact List.drop_left _ _
  have hsnd : jsIndexOfFrom ':' content ((toDecimal i).length + 1)
      = some ((toDecimal i).length + 1 + (toDecimal n).length) := by
    exact jsIndexOfFrom_split hdrop1 (toDecimal_digits n)
  rw [hsnd]
  dsimp only
  have hidx : content.take (toDecimal i).length = toDecimal i := by
    rw [hcontent, show toDecimal i ++ ':' :: toDecimal n ++ ':' :: d
      = toDecimal i ++ (':' :: toDecimal n ++ ':' :: d) by simp]
    exact List.take_left _ _
  have htot : (content.take ((toDecimal i).length + 1 + (toDecimal n).length)).drop
      ((toDecimal i).length + 1) = toDecimal n := by
    rw [epre]
    rw [show (toDecimal i).length + 1 + (toDecimal n).length
      = (toDecimal i ++ [':']).length + (toDecimal n).length by simp]
    rw [List.take_append]
    rw [show (toDecimal n ++ ':' :: d).take (toDecimal n).length = toDecimal n from
      List.take_left _ _]
    rw [show (toDecimal i).length + 1 = (toDecimal i ++ [':']).length by simp,
      List.drop_left]
  have hdata : content.drop ((toDecimal i).length + 1 + (toDecimal n).length + 1) = d := by
    rw [show content = (toDecimal i ++ [':'] ++ toDecimal n ++ [':']) ++ d by simp [hcontent]]
    rw [show (toDecimal i).length + 1 + (toDecimal n).length + 1
      = (toDecimal i ++ [':'] ++ toDecimal n ++ [':']).length by
        simp only [List.length_append, List.length_cons, List.length_nil]]
    exact List.drop_left _ _
  rw [hidx, htot, hdata]
  rw [jsParseInt_decimal i, jsParseInt_decimal n]
  dsimp only
  rw [if_neg (by omega)]
  simp

/-! # Chunk slicing, sorting, and reassembly lemmas -/

theorem flatten_slices (m : Nat) (hm : 0 < m) :
    ∀ (n : Nat) (s : List Char), s.length ≤ n * m →
      ((List.range n).map (fun i =>
        (s.take (min (i * m + m) s.length)).drop (i * m))).flatten = s := by
  intro n
  induction n with
  | zero =>
    intro s hs
    simp at hs
    simp [hs]
  | succ k ih =>
    intro s hs
    have hs2 : s.length ≤ k * m + m := by
      have : (k + 1) * m = k * m + m := by ring
      omega
    rw [List.range_succ_eq_map, List.map_cons, List.flatten_cons, List.map_map]
    simp only [Nat.zero_mul, Nat.zero_add, List.drop_zero]
    by_cases hsm : s.length ≤ m
    · rw [min_eq_right hsm, List.take_length]
      have hrest : ∀ x ∈ (List.range k).map
          ((fun i => (s.take (min (i * m + m) s.length)).drop (i * m)) ∘ Nat.succ),
          x = [] := by
        intro x hx
        simp only [List.mem_map, Function.comp_apply, List.mem_range] at hx
        obtain ⟨j, _, rfl⟩ := hx
        apply List.drop_eq_nil_of_le
        have hsucc : m ≤ Nat.succ j * m := by
          have : 1 * m ≤ Nat.succ j * m := Nat.mul_le_mul_right m (by omega)
          omega
        calc (s.take (min (Nat.succ j * m + m) s.length)).length
            ≤ s.length := by rw [List.length_take]; omega
          _ ≤ m := hsm
          _ ≤ Nat.succ j * m := hsucc
      rw [List.flatten_eq_nil_iff.mpr hrest, List.append_nil]
    · push_neg at hsm
      rw [min_eq_left (by omega)]
      have hshift : ∀ j ∈ List.range k,
          ((fun i => (s.take (min (i * m + m) s.length)).drop (i * m)) ∘ Nat.succ) j
            = ((s.drop m).take (min (j * m + m) (s.drop m).length)).drop (j * m) := by
        intro j _
        simp only [Function.comp_apply]
        have e1 : Nat.succ j * m = m + j * m := by
          simp only [Nat.succ_eq_add_one]; ring
        rw [List.drop_take, List.drop_take, List.drop_drop, List.length_drop, e1]
        congr 1
        omega
      rw [List.map_congr_left hshift]
      rw [ih (s.drop m) (by rw [List.length_drop]; omega)]
      exact List.take_append_drop m s

theorem insertByIndex_of_ge {c : QRChunk} :
    ∀ {acc : List QRChunk}, (∀ d ∈ acc, d.index ≤ c.index) →
      insertByIndex c acc = acc ++ [c] := by
  intro acc
  induction acc with
  | nil => intro _; rfl
  | cons d ds ih =>
    intro h
    rw [insertByIndex, if_pos (h d (by simp))]
    rw [ih (fun e he => h e (by simp [he]))]
    rfl

theorem foldl_insert_of_sorted :
    ∀ (l acc : List QRChunk),
      (l.Pairwise (fun a b => a.index ≤ b.index)) →
      (∀ a ∈ acc, ∀ b ∈ l, a.index ≤ b.index) →
      (List.foldl (fun acc c => insertByIndex c acc) acc l) = acc ++ l := by
  intro l
  induction l with
  | nil => intro acc _ _; simp
  | cons c cs ih =>
    intro acc hp hacc
    rw [List.foldl_cons]
    rw [insertByIndex_of_ge (fun d hd => hacc d hd c (by simp))]
    rw [ih (acc ++ [c]) (List.Pairwise.sublist (by simp) hp)]
    · simp
    · intro a ha b hb
      rcases List.mem_append.mp ha with h1 | h2
      · exact hacc a h1 b (by simp [hb])
      · simp at h2
        subst h2
        exact (List.pairwise_cons.mp hp).1 b hb

theorem sortByIndex_of_sorted {l : List QRChunk}
    (h : l.Pairwise (fun a b => a.index ≤ b.index)) : sortByIndex l = l := by
  unfold sortByIndex
  rw [foldl_insert_of_sorted l [] h (by simp)]
  simp

theorem indicesAscendingFrom_map_range :
    ∀ (m : Nat) (k : Nat) (g : Nat → QRChunk), (∀ i, (g i).index = k + i + 1) →
      indicesAscendingFrom k ((List.range m).map g) = true := by
  intro m
  induction m with
  | zero => intro k g _; rfl
  | succ p ih =>
    intro k g hg
    rw [List.range_succ_eq_map, List.map_cons, List.map_map]
    rw [indicesAscendingFrom]
    rw [show (g 0).index = k + 1 by rw [hg 0]]
    simp only [beq_self_eq_true, Bool.true_and]
    exact ih (k + 1) (g ∘ Nat.succ) (fun i => by
      simp only [Function.comp_apply, hg (Nat.succ i)]
      omega)

theorem filterMap_all_some {α β : Type} (f : α → Option β) (g : α → β) :
    ∀ (l : List α), (∀ a ∈ l, f a = some (g a)) → l.filterMap f = l.map g := by
  intro l
  induction l with
  | nil => intro _; rfl
  | cons a as ih =>
    intro h
    rw [List.filterMap_cons, h a (by simp), List.map_cons]
    rw [ih (fun b hb => h b (by simp [hb]))]

theorem decodeMultiPartPayload_map_range (n : Nat) (hn : 0 < n) (g : Nat → QRChunk)
    (hidx : ∀ i, (g i).index = i + 1) (htot : ∀ i, (g i).total = n) :
    decodeMultiPartPayload ((List.range n).map g)
      = (match decompressFromBase64 (((List.range n).map (fun i => (g i).data)).flatten) with
         | none => none
         | some json => if json = [] then none else jsonParse json) := by
  obtain ⟨p, rfl⟩ : ∃ p, n = p + 1 := ⟨n - 1, by omega⟩
  have hne : (List.range (p + 1)).map g = g 0 :: (List.map (g ∘ Nat.succ) (List.range p)) := by
    rw [List.range_succ_eq_map, List.map_cons, List.map_map]
  rw [decodeMultiPartPayload.eq_def, hne]
  dsimp only
  rw [← hne]
  have hsorted : sortByIndex ((List.range (p + 1)).map g) = (List.range (p + 1)).map g := by
    apply sortByIndex_of_sorted
    apply (List.pairwise_map).mpr
    apply List.Pairwise.imp (fun {a b} (hab : a < b) => ?_) (List.pairwise_lt_range (p + 1))
    rw [hidx a, hidx b]
    omega
  rw [hsorted]
  rw [List.length_map, List.length_range]
  rw [htot 0]
  rw [if_neg (by omega)]
  rw [indicesAscendingFrom_map_range (p + 1) 0 g (fun i => by rw [hidx i]; omega)]
  rw [if_neg (by simp)]
  rw [List.map_map]
  rfl

/-- Claim C1: for every `MultiPartPayload`, encoding with
`encodeMultiPartPayload`, parsing each resulting encoded chunk string with
`parseQRChunk`, and passing the chunk list to `decodeMultiPartPayload`
returns the payload's runtime JSON representation exactly — every chunk
string parses, and the decoded value equals `payloadToJson P` field for
field, covering both the single-chunk and the multi-chunk case. -/
theorem C1_encode_parse_decode_roundtrip (P : MultiPartPayload) :
    ∃ chunkStrs, encodeMultiPartPayload P = .ok chunkStrs ∧
      (∀ s ∈ chunkStrs, (parseQRChunk s).isSome = true) ∧
      decodeMultiPartPayload (chunkStrs.filterMap parseQRChunk) = some (payloadToJson P) := by
  have hjp : jsonParse (jsonStringify (payloadToJson P)) = some (payloadToJson P) :=
    jsonParse_stringify (parsesBack_payloadToJson P)
  have hjne : jsonStringify (payloadToJson P) ≠ [] := jsonStringify_ne_nil _
  set json := jsonStringify (payloadToJson P) with hjson
  rw [encodeMultiPartPayload.eq_def]
  dsimp only
  rw [show compressToBase64 (jsonStringify (payloadToJson P)) = 'Z' :: json from rfl]
  rw [if_neg (by simp)]
  by_cases hsz : ('Z' :: json).length + 10 ≤ MAX_CHUNK_SIZE
  · rw [if_pos hsz]
    refine ⟨_, rfl, ?_, ?_⟩
    · intro s hs
      simp only [List.mem_singleton] at hs
      subst hs
      rw [show protocolMarker ++ '1' :: ':' :: '1' :: ':' :: ('Z' :: json)
        = protocolMarker ++ toDecimal 1 ++ ':' :: toDecimal 1 ++ ':' :: ('Z' :: json) from rfl]
      rw [parseQRChunk_encoded 1 1 ('Z' :: json) (le_refl 1) (le_refl 1)]
      rfl
    · rw [show protocolMarker ++ '1' :: ':' :: '1' :: ':' :: ('Z' :: json)
        = protocolMarker ++ toDecimal 1 ++ ':' :: toDecimal 1 ++ ':' :: ('Z' :: json) from rfl]
      rw [List.filterMap_cons, parseQRChunk_encoded 1 1 ('Z' :: json) (le_refl 1) (le_refl 1)]
      simp only [List.filterMap_nil]
      have hform : [(⟨1, 1, 'Z' :: json⟩ : QRChunk)]
          = (List.range 1).map (fun i => (⟨i + 1, 1, 'Z' :: json⟩ : QRChunk)) := rfl
      rw [hform]
      rw [decodeMultiPartPayload_map_range 1 (by omega)
        (fun i => (⟨i + 1, 1, 'Z' :: json⟩ : QRChunk)) (fun i => rfl) (fun i => rfl)]
      have hflat : ((List.range 1).map (fun i =>
          ((⟨i + 1, 1, 'Z' :: json⟩ : QRChunk)).data)).flatten = 'Z' :: json := by
        simp
      rw [hflat]
      rw [show decompressFromBase64 ('Z' :: json) = some json from rfl]
      dsimp only
      rw [if_neg hjne]
      exact hjp
  · rw [if_neg hsz]
    set len := ('Z' :: json).length with hlen
    set tc := (len + (MAX_CHUNK_SIZE - 10) - 1) / (MAX_CHUNK_SIZE - 10) with htc
    have hm : MAX_CHUNK_SIZE - 10 = 890 := rfl
    have hlenlb : 891 ≤ len := by
      simp only [MAX_CHUNK_SIZE] at hsz
      omega
    have htcpos : 0 < tc := by
      rw [htc, hm]
      omega
    have hcover : len ≤ tc * (MAX_CHUNK_SIZE - 10) := by
      rw [htc, hm]
      omega
    refine ⟨_, rfl, ?_, ?_⟩
    · intro s hs
      simp only [List.mem_map, List.mem_range] at hs
      obtain ⟨i, hi, rfl⟩ := hs
      rw [parseQRChunk_encoded (i + 1) tc _ (by omega) (by omega)]
      rfl
    · rw [List.filterMap_map]
      rw [filterMap_all_some _ (fun i => (⟨i + 1, tc,
          (('Z' :: json).take (min (i * (MAX_CHUNK_SIZE - 10) + (MAX_CHUNK_SIZE - 10)) len)).drop
            (i * (MAX_CHUNK_SIZE - 10))⟩ : QRChunk)) _ (fun i hi => by
        simp only [List.mem_range] at hi
        simp only [Function.comp_apply]
        rw [parseQRChunk_encoded (i + 1) tc _ (by omega) (by omega)])]
      rw [decodeMultiPartPayload_map_range tc htcpos _ (fun i => rfl) (fun i => rfl)]
      have hflat : ((List.range tc).map (fun i =>
          (('Z' :: json).take (min (i * (MAX_CHUNK_SIZE - 10) + (MAX_CHUNK_SIZE - 10)) len)).drop
            (i * (MAX_CHUNK_SIZE - 10)))).flatten = 'Z' :: json := by
        rw [hlen]
        exact flatten_slices (MAX_CHUNK_SIZE - 10) (by rw [hm]; omega) tc ('Z' :: json)
          (by rw [← hlen]; exact hcover)
      rw [hflat]
      rw [show decompressFromBase64 ('Z' :: json) = some json from rfl]
      dsimp only
      rw [if_neg hjne]
      exact hjp

/-! # Safety properties of `parseQRChunk` -/

theorem parseQRChunk_some_bounds {raw : List Char} {c : QRChunk}
    (h : parseQRChunk raw = some c) : 1 ≤ c.index ∧ c.index ≤ c.total := by
  unfold parseQRChunk at h
  by_cases hpre : protocolMarker.isPrefixOf raw = true
  · rw [if_pos hpre] at h
    dsimp only at h
    cases hfc : jsIndexOfFrom ':' (raw.drop protocolMarker.length) 0 with
    | none => rw [hfc] at h; exact absurd h (by simp)
    | some fc =>
      rw [hfc] at h
      dsimp only at h
      cases hsc : jsIndexOfFrom ':' (raw.drop protocolMarker.length) (fc + 1) with
      | none => rw [hsc] at h; exact absurd h (by simp)
      | some sc =>
        rw [hsc] at h
        dsimp only at h
        cases hpi : jsParseInt ((raw.drop protocolMarker.length).take fc) with
        | none => rw [hpi] at h; exact absurd h (by simp)
        | some i =>
          cases hpt : jsParseInt
              (((raw.drop protocolMarker.length).take sc).drop (fc + 1)) with
          | none => rw [hpi, hpt] at h; exact absurd h (by simp)
          | some t =>
            rw [hpi, hpt] at h
            dsimp only at h
            by_cases hrange : i < 1 ∨ t < i
            · rw [if_pos hrange] at h; exact absurd h (by simp)
            · rw [if_neg hrange] at h
              push_neg at hrange
              rw [Option.some.injEq] at h
              subst h
              simp only []
              omega
  · rw [if_neg hpre] at h
    exact absurd h (by simp)

theorem jsIndexOfFrom_some_colon {l : List Char} {start k : Nat}
    (h : jsIndexOfFrom ':' l start = some k) :
    start ≤ k ∧ ∃ hk : k - start < (l.drop start).length, (l.drop start)[k - start] = ':' := by
  unfold jsIndexOfFrom at h
  cases hf : (l.drop start).findIdx? (· = ':') with
  | none => rw [hf] at h; exact absurd h (by simp)
  | some j =>
    rw [hf] at h
    rw [Option.some.injEq] at h
    obtain ⟨hj, hget, _⟩ := List.findIdx?_eq_some_iff_getElem.mp hf
    subst h
    refine ⟨by omega, ?_⟩
    have e : start + j - start = j := by omega
    rw [e]
    exact ⟨hj, by simpa using hget⟩

theorem two_colons_of_indices {content : List Char} {fc sc : Nat}
    (h1 : jsIndexOfFrom ':' content 0 = some fc)
    (h2 : jsIndexOfFrom ':' content (fc + 1) = some sc) :
    2 ≤ content.count ':' := by
  obtain ⟨-, hlt1, hget1⟩ := jsIndexOfFrom_some_colon h1
  obtain ⟨hle2, hlt2, hget2⟩ := jsIndexOfFrom_some_colon h2
  simp only [List.drop_zero, Nat.sub_zero] at hget1 hlt1
  have hsplit : content = content.take (fc + 1) ++ content.drop (fc + 1) :=
    (List.take_append_drop (fc + 1) content).symm
  have hc1 : 0 < (content.take (fc + 1)).count ':' := by
    apply List.count_pos_iff.mpr
    have hflt : fc < (content.take (fc + 1)).length := by
      rw [List.length_take]
      omega
    have hsame : (content.take (fc + 1))[fc] = content[fc] := List.getElem_take ..
    rw [← hget1, ← hsame]
    exact List.getElem_mem hflt
  have hc2 : 0 < (content.drop (fc + 1)).count ':' := by
    apply List.count_pos_iff.mpr
    rw [← hget2]
    exact List.getElem_mem hlt2
  calc 2 ≤ (content.take (fc + 1)).count ':' + (content.drop (fc + 1)).count ':' := by omega
    _ = content.count ':' := by rw [← List.count_append, ← hsplit]

/-- Claim C6: `parseQRChunk` is total over arbitrary scanned text and rejects
by returning `none`, never throwing: it returns `none` for every string
lacking the protocol marker, for every string whose remainder after the
marker holds fewer than two `':'` separators, and whenever the index/total
fields fail to parse as integers satisfying `1 ≤ index ≤ total`; and every
chunk it does return satisfies `1 ≤ index ≤ total`. -/
theorem C6_parseQRChunk_safety :
    (∀ raw : List Char, ¬ protocolMarker.isPrefixOf raw = true → parseQRChunk raw = none) ∧
    (∀ raw : List Char, protocolMarker.isPrefixOf raw = true →
      (raw.drop protocolMarker.length).count ':' < 2 → parseQRChunk raw = none) ∧
    (∀ raw : List Char, ∀ fc sc,
      jsIndexOfFrom ':' (raw.drop protocolMarker.length) 0 = some fc →
      jsIndexOfFrom ':' (raw.drop protocolMarker.length) (fc + 1) = some sc →
      (∀ i t : Int,
        jsParseInt ((raw.drop protocolMarker.length).take fc) = some i →
        jsParseInt (((raw.drop protocolMarker.length).take sc).drop (fc + 1)) = some t →
        i < 1 ∨ t < i) →
      parseQRChunk raw = none) ∧
    (∀ raw : List Char, ∀ c, parseQRChunk raw = some c → 1 ≤ c.index ∧ c.index ≤ c.total) := by
  refine ⟨?_, ?_, ?_, fun raw c h => parseQRChunk_some_bounds h⟩
  · intro raw h
    unfold parseQRChunk
    rw [if_neg h]
  · intro raw hpre hcount
    unfold parseQRChunk
    rw [if_pos hpre]
    dsimp only
    cases hfc : jsIndexOfFrom ':' (raw.drop protocolMarker.length) 0 with
    | none => rfl
    | some fc =>
      dsimp only
      cases hsc : jsIndexOfFrom ':' (raw.drop protocolMarker.length) (fc + 1) with
      | none => rfl
      | some sc =>
        have := two_colons_of_indices hfc hsc
        omega
  · intro raw fc sc hfc hsc hbad
    unfold parseQRChunk
    by_cases hpre : protocolMarker.isPrefixOf raw = true
    · rw [if_pos hpre]
      dsimp only
      rw [hfc]
      dsimp only
      rw [hsc]
      dsimp only
      cases hpi : jsParseInt ((raw.drop protocolMarker.length).take fc) with
      | none => rfl
      | some i =>
        cases hpt : jsParseInt
            (((raw.drop protocolMarker.length).take sc).drop (fc + 1)) with
        | none => rfl
        | some t =>
          dsimp only
          rw [if_pos (hbad i t hpi hpt)]
    · rw [if_neg hpre]

theorem C6_parseQRChunk_safety_witness :
    parseQRChunk "hello".data = none ∧
    parseQRChunk "AH:12".data = none ∧
    parseQRChunk "AH:0:5:x".data = none ∧
    (1 ≤ (2 : Nat) ∧ (2 : Nat) ≤ 3) := by
  refine ⟨?_, ?_, ?_, ?_⟩
  · exact C6_parseQRChunk_safety.1 "hello".data (by decide)
  · exact C6_parseQRChunk_safety.2.1 "AH:12".data (by decide) (by decide)
  · apply C6_parseQRChunk_safety.2.2.1 "AH:0:5:x".data 1 3 (by decide) (by decide)
    intro i t hi ht
    have h0 : jsParseInt (("AH:0:5:x".data.drop protocolMarker.length).take 1)
        = some 0 := by decide
    rw [h0, Option.some.injEq] at hi
    left
    omega
  · have h := C6_parseQRChunk_safety.2.2.2 "AH:2:3:x".data
      ⟨2, 3, "x".data⟩ (by decide)
    exact h

/-! # Reassembly precondition lemmas and sorting facts -/

theorem insertByIndex_perm (c : QRChunk) :
    ∀ (l : List QRChunk), (insertByIndex c l).Perm (c :: l) := by
  intro l
  induction l with
  | nil => exact List.Perm.refl _
  | cons d ds ih =>
    rw [insertByIndex]
    split
    · calc (d :: insertByIndex c ds).Perm (d :: c :: ds) := List.Perm.cons d ih
        _ = _ := rfl
        (d :: c :: ds).Perm (c :: d :: ds) := List.Perm.swap c d ds
    · exact List.Perm.refl _

theorem sortByIndex_perm (l : List QRChunk) : (sortByIndex l).Perm l := by
  suffices h : ∀ (l acc : List QRChunk),
      (List.foldl (fun acc c => insertByIndex c acc) acc l).Perm (acc ++ l) by
    simpa using h l []
  intro l
  induction l with
  | nil => intro acc; simp
  | cons c cs ih =>
    intro acc
    rw [List.foldl_cons]
    calc (List.foldl (fun acc c => insertByIndex c acc) (insertByIndex c acc) cs).Perm
          (insertByIndex c acc ++ cs) := ih (insertByIndex c acc)
      _ = _ := rfl
      (insertByIndex c acc ++ cs).Perm ((c :: acc) ++ cs) :=
        (insertByIndex_perm c acc).append_right cs
      ((c :: acc) ++ cs).Perm (acc ++ c :: cs) := by
        simpa using List.perm_middle.symm

theorem sortByIndex_length (l : List QRChunk) : (sortByIndex l).length = l.length :=
  (sortByIndex_perm l).length_eq

theorem indicesAscendingFrom_iff :
    ∀ (l : List QRChunk) (k : Nat),
      indicesAscendingFrom k l = true ↔
        l.map QRChunk.index = List.range' (k + 1) l.length := by
  intro l
  induction l with
  | nil => intro k; simp [indicesAscendingFrom]
  | cons c cs ih =>
    intro k
    rw [indicesAscendingFrom, List.map_cons, List.length_cons,
      show List.range' (k + 1) (cs.length + 1) = (k + 1) :: List.range' (k + 2) cs.length
        from rfl]
    rw [Bool.and_eq_true, beq_iff_eq, List.cons.injEq]
    constructor
    · rintro ⟨h1, h2⟩
      exact ⟨h1, by simpa using (ih (k + 1)).mp h2⟩
    · rintro ⟨h1, h2⟩
      exact ⟨h1, (ih (k + 1)).mpr (by simpa using h2)⟩

/-- Claim C3 (counterexample): a chunk list in which the second chunk's
`total` (999) differs from the first chunk's `total` (2) is not rejected:
`decodeMultiPartPayload` happily assembles it, because the code never
compares each chunk's `total` against the first chunk's. -/
theorem C3_counterexample :
    (∃ c ∈ [(⟨1, 2, ['Z']⟩ : QRChunk),
            ⟨2, 999, jsonStringify (payloadToJson ⟨[], [], []⟩)⟩],
        c.total ≠ (⟨1, 2, ['Z']⟩ : QRChunk).total) ∧
    decodeMultiPartPayload [(⟨1, 2, ['Z']⟩ : QRChunk),
        ⟨2, 999, jsonStringify (payloadToJson ⟨[], [], []⟩)⟩]
      = some (payloadToJson ⟨[], [], []⟩) := by
  constructor
  · refine ⟨⟨2, 999, jsonStringify (payloadToJson ⟨[], [], []⟩)⟩, by simp, by decide⟩
  · rfl

/-- Claim C3 (amended): `decodeMultiPartPayload` returns `none` whenever the
input list is empty, or the number of chunks differs from the first chunk's
`total`, or the chunks sorted by index do not carry exactly the indices
`1..total` (a gap, a duplicate, or an out-of-range index); but a chunk whose
`total` differs from the first chunk's `total` is not, by itself, rejected —
the code never checks per-chunk totals against the first chunk's. -/
theorem C3_decode_rejects_incomplete :
    decodeMultiPartPayload [] = none ∧
    (∀ (c0 : QRChunk) (rest : List QRChunk),
      (c0 :: rest).length ≠ c0.total →
      decodeMultiPartPayload (c0 :: rest) = none) ∧
    (∀ (c0 : QRChunk) (rest : List QRChunk),
      (sortByIndex (c0 :: rest)).map QRChunk.index ≠
        List.range' 1 (c0 :: rest).length →
      decodeMultiPartPayload (c0 :: rest) = none) := by
  refine ⟨rfl, ?_, ?_⟩
  · intro c0 rest h
    rw [decodeMultiPartPayload.eq_def]
    dsimp only
    rw [if_pos (by rw [sortByIndex_length]; exact h)]
  · intro c0 rest h
    rw [decodeMultiPartPayload.eq_def]
    dsimp only
    by_cases hlen : (sortByIndex (c0 :: rest)).length ≠ c0.total
    · rw [if_pos hlen]
    · push_neg at hlen
      rw [if_neg (by omega)]
      have hasc : ¬ indicesAscendingFrom 0 (sortByIndex (c0 :: rest)) = true := by
        rw [indicesAscendingFrom_iff]
        have hl2 : (sortByIndex (c0 :: rest)).length = rest.length + 1 := by
          rw [sortByIndex_length]; rfl
        rw [hl2]
        simpa using h
      rw [if_pos (by simpa using hasc)]

theorem C3_decode_rejects_incomplete_witness :
    decodeMultiPartPayload [⟨1, 3, "a".data⟩] = none ∧
    decodeMultiPartPayload [⟨1, 2, "a".data⟩, ⟨3, 2, "b".data⟩] = none := by
  constructor
  · exact C3_decode_rejects_incomplete.2.1 ⟨1, 3, "a".data⟩ [] (by decide)
  · exact C3_decode_rejects_incomplete.2.2 ⟨1, 2, "a".data⟩ [⟨3, 2, "b".data⟩] (by decide)

/-! # Chunk size bound lemmas -/

theorem toDecimalAux_length : ∀ (fuel n k : Nat), n ≤ fuel → n < 10 ^ k →
    (toDecimalAux fuel n).length ≤ k := by
  intro fuel
  induction fuel with
  | zero => intro n k h _; interval_cases n; simp [toDecimalAux_zero]
  | succ f ih =>
    intro n k hn hk
    match n with
    | 0 => simp [toDecimalAux_succ]
    | m+1 =>
      rw [toDecimalAux_succ, if_neg (by omega), List.length_append]
      have hkpos : 0 < k := by
        by_contra hc
        push_neg at hc
        interval_cases k
        simp at hk
      obtain ⟨k2, rfl⟩ : ∃ k2, k = k2 + 1 := ⟨k - 1, by omega⟩
      have hdiv1 : (m + 1) / 10 ≤ f := by
        have := Nat.div_lt_self (show 0 < m + 1 by omega) (show 1 < 10 by omega)
        omega
      have hdiv2 : (m + 1) / 10 < 10 ^ k2 := by
        rw [pow_succ] at hk
        have : m + 1 < 10 ^ k2 * 10 := hk
        omega
      have := ih ((m + 1) / 10) k2 hdiv1 hdiv2
      simp only [List.length_cons, List.length_nil]
      omega

theorem toDecimal_length_le {n k : Nat} (hk : 0 < k) (h : n < 10 ^ k) :
    (toDecimal n).length ≤ k := by
  unfold toDecimal
  split
  · simpa using hk
  · exact toDecimalAux_length n n k (le_refl n) h

/-- Claim C4 (amended): payloads are split into more than one chunk only when
the compressed text plus the 10-character header budget exceeds
`MAX_CHUNK_SIZE` (900); and every encoded chunk string is at most 900
characters long whenever at most 99 chunks are produced.  The universal
900-character bound of the original claim fails once index and total reach
three digits each, since the actual header `AH:i:n:` then occupies 11
characters against the 10 reserved. -/
theorem C4_chunk_size_bound (P : MultiPartPayload) (chunks : List (List Char))
    (h : encodeMultiPartPayload P = .ok chunks) :
    (1 < chunks.length →
      MAX_CHUNK_SIZE < (compressToBase64 (jsonStringify (payloadToJson P))).length + 10) ∧
    (chunks.length ≤ 99 → ∀ s ∈ chunks, s.length ≤ MAX_CHUNK_SIZE) := by
  have hm3 : protocolMarker.length = 3 := rfl
  rw [encodeMultiPartPayload.eq_def] at h
  dsimp only at h
  rw [if_neg (by simp [compressToBase64])] at h
  by_cases hsz : (compressToBase64 (jsonStringify (payloadToJson P))).length + 10
      ≤ MAX_CHUNK_SIZE
  · rw [if_pos hsz] at h
    rw [Except.ok.injEq] at h
    subst h
    constructor
    · intro hgt
      simp at hgt
    · intro _ s hs
      simp only [List.mem_singleton] at hs
      subst hs
      simp only [List.length_append, List.length_cons]
      omega
  · rw [if_neg hsz] at h
    rw [Except.ok.injEq] at h
    subst h
    refine ⟨fun _ => by omega, ?_⟩
    intro hle s hs
    rw [List.length_map, List.length_range] at hle
    simp only [List.mem_map, List.mem_range] at hs
    obtain ⟨i, hi, rfl⟩ := hs
    simp only [MAX_CHUNK_SIZE] at hle hi ⊢
    have h100 : (100 : Nat) = 10 ^ 2 := by norm_num
    have hdi : (toDecimal (i + 1)).length ≤ 2 :=
      toDecimal_length_le (by omega) (by omega)
    have hdt : (toDecimal (((compressToBase64 (jsonStringify (payloadToJson P))).length
        + (900 - 10) - 1) / (900 - 10))).length ≤ 2 :=
      toDecimal_length_le (by omega) (by omega)
    have hslice : (((compressToBase64 (jsonStringify (payloadToJson P))).take
        (min (i * (900 - 10) + (900 - 10))
          (compressToBase64 (jsonStringify (payloadToJson P))).length)).drop
        (i * (900 - 10))).length ≤ 890 := by
      rw [List.length_drop, List.length_take]
      omega
    simp only [List.length_append, List.length_cons]
    omega


/-- Length of the serialized one-patient payload whose clinical situation is
`s` and all other fields are empty or default. -/
theorem lenPbigGen (s : List Char) :
    (jsonStringify (payloadToJson ⟨[(⟨[], none, [], [], .verde, none, [], false,
      false, none⟩, ⟨s, [], [], [], [], []⟩)], [], []⟩)).length
      = 316 + (toDecimal s.length).length + s.length := by
  simp only [payloadToJson, patientToJson, identityToJson, clinicalToJson,
    TriageLevel.toStr, jsonStringify, stringifyKVs, stringifyList, strSer,
    JsonKVs.ofList, JsonList.ofList, JsonKVs.length, JsonList.length,
    List.map_cons, List.map_nil]
  simp only [List.length_append, List.length_cons, List.length_nil]
  have h0 : (toDecimal 0).length = 1 := by decide
  have h1 : (toDecimal (0+1)).length = 1 := by decide
  have h2 : (toDecimal (0+1+1)).length = 1 := by decide
  have h3 : (toDecimal (0+1+1+1)).length = 1 := by decide
  have h4 : (toDecimal (0+1+1+1+1)).length = 1 := by decide
  have h5 : (toDecimal (0+1+1+1+1+1)).length = 1 := by decide
  have h6 : (toDecimal (0+1+1+1+1+1+1)).length = 1 := by decide
  have h7 : (toDecimal (0+1+1+1+1+1+1+1)).length = 1 := by decide
  have h8 : (toDecimal (0+1+1+1+1+1+1+1+1)).length = 1 := by decide
  have h9 : (toDecimal (0+1+1+1+1+1+1+1+1+1)).length = 1 := by decide
  have h10 : (toDecimal (0+1+1+1+1+1+1+1+1+1+1)).length = 2 := by decide
  have h11 : (toDecimal (0+1+1+1+1+1+1+1+1+1+1+1)).length = 2 := by decide
  have h12 : (toDecimal (0+1+1+1+1+1+1+1+1+1+1+1+1)).length = 2 := by decide
  have h13 : (toDecimal (0+1+1+1+1+1+1+1+1+1+1+1+1+1)).length = 2 := by decide
  have h14 : (toDecimal (0+1+1+1+1+1+1+1+1+1+1+1+1+1+1)).length = 2 := by decide
  omega


/-- Any payload serializing to 89321 characters is split into 101 chunks and
chunk number 100 (`AH:100:101:` plus 890 data characters) has 901 characters. -/
theorem encode_chunk100 (P : MultiPartPayload)
    (hlen : (jsonStringify (payloadToJson P)).length = 89321) :
    ((encodeMultiPartPayload P).toOption.bind (fun l => l[99]?)).map List.length
      = some 901 := by
  have hclen : (compressToBase64 (jsonStringify (payloadToJson P))).length = 89322 := by
    rw [show compressToBase64 (jsonStringify (payloadToJson P))
      = 'Z' :: jsonStringify (payloadToJson P) from rfl, List.length_cons, hlen]
  rw [encodeMultiPartPayload.eq_def]
  dsimp only
  rw [if_neg (show ¬ compressToBase64 (jsonStringify (payloadToJson P)) = []
    from List.cons_ne_nil 'Z' _)]
  rw [if_neg (by rw [hclen]; decide)]
  simp only [hclen, MAX_CHUNK_SIZE]
  norm_num
  simp only [Except.toOption, Option.some_bind, List.getElem?_map, List.getElem?_range]
  norm_num
  simp only [List.length_append, List.length_cons, List.length_drop, List.length_take,
    hclen, protocolMarker]
  decide


/-- Claim C4 (counterexample): a payload whose clinical situation text has
89000 characters is split into 101 chunks, and chunk number 100 is 901
characters long — exceeding `MAX_CHUNK_SIZE` (900), because the actual header
`AH:100:101:` needs 11 characters against the 10 reserved. -/
theorem C4_counterexample :
    MAX_CHUNK_SIZE < 901 ∧
    ((encodeMultiPartPayload ⟨[(⟨[], none, [], [], .verde, none, [], false, false, none⟩,
        ⟨List.replicate 89000 'a', [], [], [], [], []⟩)], [], []⟩).toOption.bind
      (fun l => l[99]?)).map List.length = some 901 := by
  refine ⟨by decide, ?_⟩
  apply encode_chunk100
  rw [lenPbigGen (List.replicate 89000 'a'), List.length_replicate]
  rw [show (toDecimal 89000).length = 5 from by decide]

theorem C4_chunk_size_bound_witness :
    (protocolMarker ++ '1' :: ':' :: '1' :: ':' :: compressToBase64 (jsonStringify
      (payloadToJson ⟨[], [], []⟩))).length ≤ MAX_CHUNK_SIZE :=
  (C4_chunk_size_bound ⟨[], [], []⟩
    [protocolMarker ++ '1' :: ':' :: '1' :: ':' :: compressToBase64 (jsonStringify
      (payloadToJson ⟨[], [], []⟩))] rfl).2 (by simp)
    _ (List.mem_singleton.mpr rfl)

/-! # Scan aggregator state invariants -/

theorem mapSet_keys_overwrite {m : List (Nat × QRChunk)} {k : Nat} (v : QRChunk)
    (h : m.any (fun kv => kv.1 = k) = true) :
    (mapSet m k v).map Prod.fst = m.map Prod.fst := by
  unfold mapSet
  rw [if_pos h, List.map_map]
  apply List.map_congr_left
  intro kv _
  simp only [Function.comp_apply]
  split
  · rename_i hk
    simp [hk]
  · rfl

theorem mapSet_keys_new {m : List (Nat × QRChunk)} {k : Nat} (v : QRChunk)
    (h : ¬ m.any (fun kv => kv.1 = k) = true) :
    (mapSet m k v).map Prod.fst = m.map Prod.fst ++ [k] := by
  unfold mapSet
  rw [if_neg h, List.map_append]
  rfl

theorem mapSet_mem {m : List (Nat × QRChunk)} {k : Nat} {v : QRChunk} :
    ∀ kv ∈ mapSet m k v, kv ∈ m ∨ kv = (k, v) := by
  intro kv hkv
  unfold mapSet at hkv
  split at hkv
  · rw [List.mem_map] at hkv
    obtain ⟨kv0, hkv0, heq⟩ := hkv
    by_cases hk : kv0.1 = k
    · rw [if_pos hk] at heq
      right
      exact heq.symm
    · rw [if_neg hk] at heq
      left
      rw [← heq]
      exact hkv0
  · rw [List.mem_append] at hkv
    rcases hkv with h1 | h2
    · left; exact h1
    · right; simpa using h2

theorem handleScan_inv {T : Nat} {st : ScanState} {raw now : List Char}
    (hinv : ScanInv T st)
    (huni : ∀ c : QRChunk, parseQRChunk raw = some c → c.total = T) :
    ScanInv T ((handleScan now st raw).1) := by
  unfold handleScan
  by_cases hdup : st.lastScanned = some raw
  · rw [if_pos hdup]
    exact hinv
  · rw [if_neg hdup]
    dsimp only
    cases hp : parseQRChunk raw with
    | none =>
      cases hj : jsonParse raw with
      | none => exact ⟨hinv.1, hinv.2.1, hinv.2.2⟩
      | some legacy =>
        cases legacy with
        | null => exact ⟨hinv.1, hinv.2.1, hinv.2.2⟩
        | bool b =>
          dsimp only
          split
          · exact ⟨hinv.1, hinv.2.1, hinv.2.2⟩
          · exact ⟨hinv.1, hinv.2.1, hinv.2.2⟩
        | num i =>
          dsimp only
          split
          · exact ⟨hinv.1, hinv.2.1, hinv.2.2⟩
          · exact ⟨hinv.1, hinv.2.1, hinv.2.2⟩
        | str s =>
          dsimp only
          split
          · exact ⟨hinv.1, hinv.2.1, hinv.2.2⟩
          · exact ⟨hinv.1, hinv.2.1, hinv.2.2⟩
        | arr l =>
          dsimp only
          split
          · exact ⟨hinv.1, hinv.2.1, hinv.2.2⟩
          · exact ⟨hinv.1, hinv.2.1, hinv.2.2⟩
        | obj l =>
          dsimp only
          split
          · exact ⟨hinv.1, hinv.2.1, hinv.2.2⟩
          · exact ⟨hinv.1, hinv.2.1, hinv.2.2⟩
    | some c =>
      dsimp only
      have htot : c.total = T := huni c hp
      have hbounds := parseQRChunk_some_bounds hp
      have hkeys : ∀ kv ∈ mapSet st.chunks c.index c, 1 ≤ kv.1 ∧ kv.1 ≤ T := by
        intro kv hkv
        rcases mapSet_mem kv hkv with h1 | h2
        · exact hinv.2.1 kv h1
        · rw [h2]
          constructor
          · exact hbounds.1
          · rw [← htot]
            exact hbounds.2
      have hnodup : ((mapSet st.chunks c.index c).map Prod.fst).Nodup := by
        by_cases hany : st.chunks.any (fun kv => kv.1 = c.index) = true
        · rw [mapSet_keys_overwrite c hany]
          exact hinv.1
        · rw [mapSet_keys_new c hany]
          rw [List.nodup_append]
          refine ⟨hinv.1, List.nodup_singleton _, ?_⟩
          intro a ha hb
          simp only [List.mem_singleton] at hb
          subst hb
          rw [List.mem_map] at ha
          obtain ⟨kv, hkv, hfst⟩ := ha
          apply hany
          rw [List.any_eq_true]
          exact ⟨kv, hkv, by simp [hfst]⟩
      split
      · cases hdec : decodeMultiPartPayload
            ((mapSet st.chunks c.index c).map (fun kv => kv.2)) with
        | some payload => exact ⟨hnodup, hkeys, Or.inr (by simp [htot])⟩
        | none => exact ⟨hnodup, hkeys, Or.inr (by simp [htot])⟩
      · exact ⟨hnodup, hkeys, Or.inr (by simp [htot])⟩

theorem foldScans_inv {T : Nat} {now : List Char} :
    ∀ (s : List (List Char)) (st : ScanState), ScanInv T st →
    (∀ raw ∈ s, ∀ c : QRChunk, parseQRChunk raw = some c → c.total = T) →
    ScanInv T (foldScans now st s)
  | [], st, hinv, _ => hinv
  | raw :: rest, st, hinv, huni => by
    rw [foldScans]
    dsimp only [List.foldl_cons]
    rw [← foldScans]
    exact foldScans_inv rest _ (handleScan_inv hinv (huni raw (List.mem_cons_self raw rest)))
      (fun r hr => huni r (List.mem_cons_of_mem raw hr))

theorem nodup_keys_length_le {T : Nat} {keys : List Nat}
    (hnd : keys.Nodup) (hmem : ∀ k ∈ keys, 1 ≤ k ∧ k ≤ T) :
    keys.length ≤ T := by
  have hcard : keys.length = keys.toFinset.card := (List.toFinset_card_of_nodup hnd).symm
  rw [hcard]
  have hsub : keys.toFinset ⊆ Finset.Icc 1 T := by
    intro k hk
    rw [List.mem_toFinset] at hk
    rw [Finset.mem_Icc]
    exact hmem k hk
  calc keys.toFinset.card ≤ (Finset.Icc 1 T).card := Finset.card_le_card hsub
    _ = T := by rw [Nat.card_Icc]; omega

/-- C7 counterexample: the scan sequence `AH:1:5:a`, `AH:2:5:b`, `AH:3:5:c`,
`AH:1:2:d` is accepted chunk by chunk, yet afterwards `totalChunks` is `2`
(the total of the *last* accepted scan, not the `5` recorded from the first
accepted scan) and the chunk map holds `3 > 2` entries: `handleScan`
overwrites `expectedTotal` on every accepted chunk, so under mixed totals
the set grows past `expectedTotal`. -/
theorem C7_counterexample :
    (parseQRChunk ("AH:1:5:a".data)).map (fun c => c.total) = some 5 ∧
    (foldScans [] initialScanState
      ["AH:1:5:a".data, "AH:2:5:b".data, "AH:3:5:c".data, "AH:1:2:d".data]).totalChunks
        = some 2 ∧
    (foldScans [] initialScanState
      ["AH:1:5:a".data, "AH:2:5:b".data, "AH:3:5:c".data, "AH:1:2:d".data]).chunks.length
        = 3 := by
  refine ⟨by decide, by decide, by decide⟩

/-- C7 (amended): when every raw value that parses as a chunk carries the same
total `T` — the situation the spec presumes — the invariant holds in every
reachable state: the chunk map has at most `T` entries, `totalChunks` is unset
or equal to `T`, and submitting a chunk whose index is already present
overwrites the entry rather than growing the map. -/
theorem C7_aggregator_invariant (now : List Char) (s : List (List Char)) (T : Nat)
    (huni : ∀ raw ∈ s, ∀ c : QRChunk, parseQRChunk raw = some c → c.total = T) :
    (foldScans now initialScanState s).chunks.length ≤ T ∧
    ((foldScans now initialScanState s).totalChunks = none ∨
      (foldScans now initialScanState s).totalChunks = some T) ∧
    (∀ (st : ScanState) (raw : List Char) (c : QRChunk),
      parseQRChunk raw = some c →
      st.chunks.any (fun kv => kv.1 = c.index) = true →
      ((handleScan now st raw).1).chunks.length = st.chunks.length) := by
  have hinit : ScanInv T initialScanState := by
    refine ⟨?_, ?_, Or.inl rfl⟩
    · simp [initialScanState]
    · intro kv hkv
      simp [initialScanState] at hkv
  have hinv := @foldScans_inv T now s initialScanState hinit huni
  refine ⟨?_, hinv.2.2, ?_⟩
  · rw [← List.length_map (foldScans now initialScanState s).chunks Prod.fst]
    apply nodup_keys_length_le hinv.1
    intro k hk
    rw [List.mem_map] at hk
    obtain ⟨kv, hkv, hfst⟩ := hk
    rw [← hfst]
    exact hinv.2.1 kv hkv
  · intro st raw c hp hany
    unfold handleScan
    by_cases hdup : st.lastScanned = some raw
    · rw [if_pos hdup]
    · rw [if_neg hdup]
      dsimp only
      rw [hp]
      dsimp only
      have hlen : (mapSet st.chunks c.index c).length = st.chunks.length := by
        unfold mapSet
        rw [if_pos hany, List.length_map]
      split
      · cases hdec : decodeMultiPartPayload
            ((mapSet st.chunks c.index c).map (fun kv => kv.2)) with
        | some payload => exact hlen
        | none => exact hlen
      · exact hlen

/-- Witness for C7 at a concrete uniform-total scan sequence. -/
theorem C7_aggregator_invariant_witness :
    (foldScans [] initialScanState ["AH:1:2:x".data, "AH:2:2:y".data]).chunks.length ≤ 2 ∧
    ((foldScans [] initialScanState ["AH:1:2:x".data, "AH:2:2:y".data]).totalChunks = none ∨
      (foldScans [] initialScanState ["AH:1:2:x".data, "AH:2:2:y".data]).totalChunks
        = some 2) := by
  have h := C7_aggregator_invariant [] ["AH:1:2:x".data, "AH:2:2:y".data] 2 ?_
  · exact ⟨h.1, h.2.1⟩
  · intro raw hraw c hp
    simp only [List.mem_cons, List.not_mem_nil, or_false] at hraw
    rcases hraw with rfl | rfl
    · have h2 : some (QRChunk.mk 1 2 ['x']) = some c :=
        (by decide : parseQRChunk ("AH:1:2:x".data) = some (QRChunk.mk 1 2 ['x'])).symm.trans hp
      cases Option.some.inj h2
      rfl
    · have h2 : some (QRChunk.mk 2 2 ['y']) = some c :=
        (by decide : parseQRChunk ("AH:2:2:y".data) = some (QRChunk.mk 2 2 ['y'])).symm.trans hp
      cases Option.some.inj h2
      rfl

/-! # Legacy single-patient upgrade path -/

theorem parseJ_A {f : Nat} {r : List Char} : parseJ (f + 1) ('A' :: r) = none := rfl

theorem parseQRChunk_of_jsonParse {raw : List Char} {v : Json}
    (h : jsonParse raw = some v) : parseQRChunk raw = none := by
  by_cases hpre : protocolMarker.isPrefixOf raw
  · exfalso
    rw [List.isPrefixOf_iff_prefix] at hpre
    obtain ⟨t, ht⟩ := hpre
    have hform : raw = 'A' :: 'H' :: ':' :: t := by
      rw [← ht]
      rfl
    rw [hform, jsonParse, parseJ_A] at h
    exact Option.noConfusion h
  · rw [parseQRChunk, if_neg hpre]

/-- C8: a raw string that parses as a JSON object with truthy `identity` and
`clinical` fields (such a string never carries the `AH:` protocol marker, so
`parseQRChunk` rejects it) is accepted by both decode paths — the scanner
callback and the manual-paste import — as the legacy single-patient upgrade;
and when `sessionToken` and `timestamp` are absent, the upgraded value is the
one-element multipart payload holding exactly that identity/clinical pair with
`sessionToken = ""` and `timestamp` defaulted to the current time. -/
theorem C8_legacy_single_patient_upgrade (now raw receiverId : List Char) (fs : JsonKVs)
    (hj : jsonParse raw = some (.obj fs))
    (hid : jsTruthy (jsGetField (.obj fs) ("identity".data)) = true)
    (hcl : jsTruthy (jsGetField (.obj fs) ("clinical".data)) = true)
    (hraw : jsTrim raw ≠ [])
    (hrecv : jsTrim receiverId ≠ []) :
    parseQRChunk raw = none ∧
    (handleScan now initialScanState raw).2 = some (legacyUpgrade (.obj fs) now) ∧
    handleManualPaste raw receiverId now = some (legacyUpgrade (.obj fs) now) ∧
    (∀ idv clv, jsGetField (.obj fs) ("identity".data) = some idv →
      jsGetField (.obj fs) ("clinical".data) = some clv →
      jsGetField (.obj fs) ("sessionToken".data) = none →
      jsGetField (.obj fs) ("timestamp".data) = none →
      legacyUpgrade (.obj fs) now = .obj (JsonKVs.ofList [
        ("patients".data, .arr (JsonList.ofList [.obj (JsonKVs.ofList [
          ("identity".data, idv), ("clinical".data, clv)])])),
        ("sessionToken".data, .str []),
        ("timestamp".data, .str now)])) := by
  have hchunk : parseQRChunk raw = none := parseQRChunk_of_jsonParse hj
  refine ⟨hchunk, ?_, ?_, ?_⟩
  · rw [handleScan, if_neg (by simp [initialScanState])]
    dsimp only
    rw [hchunk]
    dsimp only
    rw [hj]
    dsimp only
    rw [hid, hcl]
    rfl
  · rw [handleManualPaste, if_neg hraw, if_neg hrecv]
    rw [hj]
    dsimp only
    rw [hid, hcl]
    rfl
  · intro idv clv hidv hclv hstok hts
    rw [legacyUpgrade, hidv, hclv, hstok, hts]
    rfl

/-- Witness for C8 at a concrete legacy object. -/
theorem C8_legacy_single_patient_upgrade_witness :
    parseQRChunk (jsonStringify (Json.obj (JsonKVs.ofList
      [("identity".data, Json.bool true), ("clinical".data, Json.bool true)]))) = none ∧
    (handleScan ("T".data) initialScanState (jsonStringify (Json.obj (JsonKVs.ofList
      [("identity".data, Json.bool true), ("clinical".data, Json.bool true)])))).2
      = some (legacyUpgrade (Json.obj (JsonKVs.ofList
        [("identity".data, Json.bool true), ("clinical".data, Json.bool true)])) ("T".data)) ∧
    handleManualPaste (jsonStringify (Json.obj (JsonKVs.ofList
      [("identity".data, Json.bool true), ("clinical".data, Json.bool true)])))
      ("me".data) ("T".data)
      = some (legacyUpgrade (Json.obj (JsonKVs.ofList
        [("identity".data, Json.bool true), ("clinical".data, Json.bool true)])) ("T".data)) ∧
    (∀ idv clv,
      jsGetField (Json.obj (JsonKVs.ofList
        [("identity".data, Json.bool true), ("clinical".data, Json.bool true)]))
        ("identity".data) = some idv →
      jsGetField (Json.obj (JsonKVs.ofList
        [("identity".data, Json.bool true), ("clinical".data, Json.bool true)]))
        ("clinical".data) = some clv →
      jsGetField (Json.obj (JsonKVs.ofList
        [("identity".data, Json.bool true), ("clinical".data, Json.bool true)]))
        ("sessionToken".data) = none →
      jsGetField (Json.obj (JsonKVs.ofList
        [("identity".data, Json.bool true), ("clinical".data, Json.bool true)]))
        ("timestamp".data) = none →
      legacyUpgrade (Json.obj (JsonKVs.ofList
        [("identity".data, Json.bool true), ("clinical".data, Json.bool true)])) ("T".data)
        = .obj (JsonKVs.ofList [
          ("patients".data, .arr (JsonList.ofList [.obj (JsonKVs.ofList [
            ("identity".data, idv), ("clinical".data, clv)])])),
          ("sessionToken".data, .str []),
          ("timestamp".data, .str ("T".data))])) :=
  C8_legacy_single_patient_upgrade ("T".data) _ ("me".data) _
    rfl (by decide) (by decide) (by decide) (by decide)

/-! # Validation atomicity -/

theorem zArrayWith_none {α : Type} {p : Json → Option α} :
    ∀ {l : JsonList} {e : Json}, e ∈ l.toList → p e = none → zArrayWith p l = none
  | .nil, e, hmem, _ => absurd hmem (by simp [JsonList.toList])
  | .cons v tl, e, hmem, hbad => by
    rw [JsonList.toList, List.mem_cons] at hmem
    rw [zArrayWith]
    rcases hmem with rfl | hmem
    · rw [hbad]
    · rw [zArrayWith_none hmem hbad]
      cases p v <;> rfl

/-- C2: validation atomicity.  If the received payload's `patients` array
contains any entry that fails the per-entry schema (for example one with a
required field missing), `MultiPartPayloadSchema.safeParse` fails as a whole
and the receive operation leaves local patient state unchanged — no entry of
the payload, valid ones included, is admitted. -/
theorem C2_validation_atomicity (fs : JsonKVs) (elems : JsonList) (e : Json)
    (st : List (IdentityParsed × ClinicalData))
    (hpat : jsGetField (.obj fs) ("patients".data) = some (.arr elems))
    (hmem : e ∈ elems.toList)
    (hbad : patientEntry_safeParse e = none) :
    multiPartPayloadSchema_safeParse (.obj fs) = none ∧
    receiveBulkHandover (.obj fs) st = st := by
  have hz : zArray patientEntry_safeParse (.arr elems) = none := by
    rw [zArray]
    exact zArrayWith_none hmem hbad
  have hmain : multiPartPayloadSchema_safeParse (.obj fs) = none := by
    rw [multiPartPayloadSchema_safeParse]
    dsimp only
    rw [hpat]
    dsimp only [Option.bind]
    rw [hz]
    rfl
  refine ⟨hmain, ?_⟩
  rw [receiveBulkHandover, hmain]

/-- Witness for C2: three valid patient entries plus one entry missing every
required field are rejected in their entirety. -/
theorem C2_validation_atomicity_witness :
    multiPartPayloadSchema_safeParse (.obj (JsonKVs.ofList [
      ("patients".data, .arr (JsonList.ofList [
        patientToJson (⟨[], none, [], [], .verde, none, [], false, false, none⟩,
          ⟨[], [], [], [], [], []⟩),
        patientToJson (⟨[], none, [], [], .rosso, none, [], true, false, none⟩,
          ⟨[], [], [], [], [], []⟩),
        patientToJson (⟨[], none, [], [], .bianco, none, [], false, true, none⟩,
          ⟨[], [], [], [], [], []⟩),
        .obj .nil])),
      ("sessionToken".data, .str []),
      ("timestamp".data, .str [])])) = none ∧
    receiveBulkHandover (.obj (JsonKVs.ofList [
      ("patients".data, .arr (JsonList.ofList [
        patientToJson (⟨[], none, [], [], .verde, none, [], false, false, none⟩,
          ⟨[], [], [], [], [], []⟩),
        patientToJson (⟨[], none, [], [], .rosso, none, [], true, false, none⟩,
          ⟨[], [], [], [], [], []⟩),
        patientToJson (⟨[], none, [], [], .bianco, none, [], false, true, none⟩,
          ⟨[], [], [], [], [], []⟩),
        .obj .nil])),
      ("sessionToken".data, .str []),
      ("timestamp".data, .str [])])) [] = [] :=
  C2_validation_atomicity _ _ (.obj .nil) [] rfl
    (List.mem_cons_of_mem _ (List.mem_cons_of_mem _ (List.mem_cons_of_mem _
      (List.mem_cons_self _ _))))
    rfl

/-! # Storage schema round trips -/

theorem zArrayWith_map_all {α : Type} {p : Json → Option α} {f : α → Json} :
    ∀ {l : List α}, (∀ a ∈ l, p (f a) = some a) →
    zArrayWith p (JsonList.ofList (l.map f)) = some l
  | [], _ => rfl
  | a :: tl, h => by
    rw [List.map_cons, JsonList.ofList, zArrayWith, h a (List.mem_cons_self a tl),
      zArrayWith_map_all (fun x hx => h x (List.mem_cons_of_mem a hx))]

theorem pendingType_enum_roundtrip (p : PendingType) :
    zEnum PendingType.ofStr? (.str p.toStr) = some p := by
  cases p <;> rfl

theorem clinicalDataSchema_roundtrip (cd : ClinicalData)
    (h1 : cd.situation.length ≤ 10000) (h2 : cd.background.length ≤ 10000)
    (h3 : cd.assessment.length ≤ 10000) (h4 : cd.recommendation.length ≤ 10000)
    (h5 : cd.timestamp.length ≤ 100) :
    clinicalDataSchema_safeParse (clinicalToJson cd) = some cd := by
  obtain ⟨s, b, a, r, pe, ts⟩ := cd
  simp only at h1 h2 h3 h4 h5
  have key : clinicalDataSchema_safeParse (clinicalToJson ⟨s, b, a, r, pe, ts⟩)
      = (zString 10000 (.str s)).bind (fun sv =>
          (zString 10000 (.str b)).bind (fun bv =>
            (zString 10000 (.str a)).bind (fun av =>
              (zString 10000 (.str r)).bind (fun rv =>
                (zArray (zEnum PendingType.ofStr?)
                    (.arr (JsonList.ofList (pe.map (fun p => .str p.toStr))))).bind (fun pev =>
                  (zString 100 (.str ts)).bind (fun tsv =>
                    some ⟨sv, bv, av, rv, pev, tsv⟩)))))) := rfl
  rw [key]
  have hpe : zArray (zEnum PendingType.ofStr?)
      (.arr (JsonList.ofList (pe.map (fun p => .str p.toStr)))) = some pe := by
    rw [zArray]
    exact zArrayWith_map_all (fun p _ => pendingType_enum_roundtrip p)
  simp only [zString, if_pos h1, if_pos h2, if_pos h3, if_pos h4, if_pos h5, hpe,
    Option.some_bind]

theorem handoverLogEntry_roundtrip (e : HandoverLogEntry)
    (h1 : e.hash.length ≤ 1000) (h2 : e.timestamp.length ≤ 1000)
    (h3 : e.receiverId.length ≤ 1000) :
    handoverLogEntrySchema_safeParse (entryToJson e) = some e := by
  obtain ⟨hs, ts, rid, dir⟩ := e
  simp only at h1 h2 h3
  have key : handoverLogEntrySchema_safeParse (entryToJson ⟨hs, ts, rid, dir⟩)
      = (zString 1000 (.str hs)).bind (fun hv =>
          (zString 1000 (.str ts)).bind (fun tv =>
            (zString 1000 (.str rid)).bind (fun rv =>
              (zEnum Direction.ofStr? (.str dir.toStr)).bind (fun dv =>
                some ⟨hv, tv, rv, dv⟩)))) := rfl
  rw [key]
  simp only [zString, if_pos h1, if_pos h2, if_pos h3, Option.some_bind]
  cases dir <;> rfl

theorem auditSchema_roundtrip (entries : List HandoverLogEntry)
    (hb : ∀ e ∈ entries, e.hash.length ≤ 1000 ∧ e.timestamp.length ≤ 1000 ∧
      e.receiverId.length ≤ 1000) :
    zArray handoverLogEntrySchema_safeParse (auditToJson entries) = some entries := by
  rw [auditToJson, zArray]
  exact zArrayWith_map_all (fun e he =>
    handoverLogEntry_roundtrip e (hb e he).1 (hb e he).2.1 (hb e he).2.2)

theorem parsesBack_entryToJson (e : HandoverLogEntry) : ParsesBack (entryToJson e) := by
  rw [entryToJson]
  apply parsesBack_obj
  intro kv hkv
  simp only [List.mem_cons, List.not_mem_nil, or_false] at hkv
  rcases hkv with rfl | rfl | rfl | rfl <;> exact parsesBack_str _

theorem parsesBack_auditToJson (entries : List HandoverLogEntry) :
    ParsesBack (auditToJson entries) := by
  rw [auditToJson]
  apply parsesBack_arr
  intro v hv
  rw [List.mem_map] at hv
  obtain ⟨e, _, rfl⟩ := hv
  exact parsesBack_entryToJson e

theorem getOrCreateKey_sessionKey (fresh : List Char) (st : StorageState) :
    ((getOrCreateKey fresh st).2).sessionKey = some ((getOrCreateKey fresh st).1) := by
  rw [getOrCreateKey]
  cases h : st.sessionKey with
  | some k => exact h
  | none => rfl

theorem getOrCreateKey_of_some {st : StorageState} {k fresh : List Char}
    (h : st.sessionKey = some k) : getOrCreateKey fresh st = (k, st) := by
  rw [getOrCreateKey, h]

theorem decryptData_same_key (fresh k data : List Char) (st : StorageState)
    (h : st.sessionKey = some k) :
    decryptData fresh ('E' :: k ++ ':' :: data) st = (some data, st) := by
  rw [decryptData, getOrCreateKey_of_some h]
  dsimp only
  rw [if_pos]
  · congr 1
    have hsplit : 'E' :: k ++ ':' :: data = ('E' :: k ++ [':']) ++ data := by
      simp
    rw [hsplit]
    have hlen : ('E' :: k ++ [':']).length = k.length + 2 := by
      simp
    rw [← hlen, List.drop_left]
  · rw [List.isPrefixOf_iff_prefix]
    exact ⟨data, by simp⟩

theorem decryptData_head_ne (fresh : List Char) {c : Char} (rest : List Char)
    (st : StorageState) (h : c ≠ 'E') :
    decryptData fresh (c :: rest) st = (none, (getOrCreateKey fresh st).2) := by
  rcases hg : getOrCreateKey fresh st with ⟨k, st2⟩
  rw [decryptData, hg]
  dsimp only
  rw [if_neg]
  intro hpre
  rw [List.isPrefixOf_iff_prefix] at hpre
  obtain ⟨t, ht⟩ := hpre
  rw [List.cons_append] at ht
  exact h (List.head_eq_of_cons_eq ht).symm

/-- C9: audit-log migration idempotence.  Starting from a legacy unencrypted
audit blob (well-formed entries within the schema's length bounds), the first
`getAuditLog` call decrypt-fails, takes the fallback parse, returns the
validated entries, and re-persists them encrypted under the session key; a
second call then succeeds through the encrypted path, returns the identical
entries, and leaves storage unchanged. -/
theorem C9_audit_migration_idempotent (fresh1 fresh2 : List Char)
    (entries : List HandoverLogEntry) (st : StorageState)
    (hstore : st.auditStore = some (jsonStringify (auditToJson entries)))
    (hb : ∀ e ∈ entries, e.hash.length ≤ 1000 ∧ e.timestamp.length ≤ 1000 ∧
      e.receiverId.length ≤ 1000) :
    (getAuditLog fresh1 st).1 = entries ∧
    ((getAuditLog fresh1 st).2).auditStore
      = some ('E' :: (getOrCreateKey fresh1 st).1 ++ ':'
          :: jsonStringify (auditToJson entries)) ∧
    (getAuditLog fresh2 ((getAuditLog fresh1 st).2)).1 = entries ∧
    (getAuditLog fresh2 ((getAuditLog fresh1 st).2)).2 = (getAuditLog fresh1 st).2 := by
  obtain ⟨tl, htl⟩ : ∃ t, jsonStringify (auditToJson entries) = 'a' :: t := ⟨_, rfl⟩
  have hk2 : ((getOrCreateKey fresh1 st).2).sessionKey
      = some ((getOrCreateKey fresh1 st).1) := getOrCreateKey_sessionKey fresh1 st
  have hdec1 : decryptData fresh1 (jsonStringify (auditToJson entries)) st
      = (none, (getOrCreateKey fresh1 st).2) := by
    rw [htl]
    exact decryptData_head_ne fresh1 tl st (by decide)
  have hjp : jsonParse (jsonStringify (auditToJson entries)) = some (auditToJson entries) :=
    jsonParse_stringify (parsesBack_auditToJson entries)
  have hza := auditSchema_roundtrip entries hb
  have henc : encryptData fresh1 (jsonStringify (auditToJson entries))
      ((getOrCreateKey fresh1 st).2)
      = ('E' :: (getOrCreateKey fresh1 st).1 ++ ':' :: jsonStringify (auditToJson entries),
         (getOrCreateKey fresh1 st).2) := by
    rw [encryptData, getOrCreateKey_of_some hk2]
  have hfirst : getAuditLog fresh1 st
      = (entries, { (getOrCreateKey fresh1 st).2 with
          auditStore := some ('E' :: (getOrCreateKey fresh1 st).1 ++ ':'
            :: jsonStringify (auditToJson entries)) }) := by
    rw [getAuditLog, hstore]
    dsimp only
    rw [hdec1]
    dsimp only
    rw [hjp]
    dsimp only
    rw [hza]
    dsimp only
    rw [henc]
  have hdec2 : decryptData fresh2
      ('E' :: (getOrCreateKey fresh1 st).1 ++ ':' :: jsonStringify (auditToJson entries))
      ({ (getOrCreateKey fresh1 st).2 with
          auditStore := some ('E' :: (getOrCreateKey fresh1 st).1 ++ ':'
            :: jsonStringify (auditToJson entries)) })
      = (some (jsonStringify (auditToJson entries)),
         { (getOrCreateKey fresh1 st).2 with
          auditStore := some ('E' :: (getOrCreateKey fresh1 st).1 ++ ':'
            :: jsonStringify (auditToJson entries)) }) :=
    decryptData_same_key fresh2 _ _ _ hk2
  have hsecond : getAuditLog fresh2
      ({ (getOrCreateKey fresh1 st).2 with
          auditStore := some ('E' :: (getOrCreateKey fresh1 st).1 ++ ':'
            :: jsonStringify (auditToJson entries)) })
      = (entries, { (getOrCreateKey fresh1 st).2 with
          auditStore := some ('E' :: (getOrCreateKey fresh1 st).1 ++ ':'
            :: jsonStringify (auditToJson entries)) }) := by
    rw [getAuditLog]
    dsimp only
    rw [hdec2]
    dsimp only
    rw [hjp]
    dsimp only
    rw [hza]
  refine ⟨by rw [hfirst], by rw [hfirst], ?_, ?_⟩
  · rw [hfirst]
    dsimp only
    rw [hsecond]
  · rw [hfirst]
    dsimp only
    rw [hsecond]

/-- Witness for C9 at a concrete one-entry legacy audit blob. -/
theorem C9_audit_migration_idempotent_witness :
    (getAuditLog ("K".data) ⟨none, some (jsonStringify (auditToJson
      [⟨"h".data, "t".data, "r".data, .sent⟩])), none⟩).1
      = [⟨"h".data, "t".data, "r".data, .sent⟩] ∧
    ((getAuditLog ("K".data) ⟨none, some (jsonStringify (auditToJson
      [⟨"h".data, "t".data, "r".data, .sent⟩])), none⟩).2).auditStore
      = some ('E' :: (getOrCreateKey ("K".data) ⟨none, some (jsonStringify (auditToJson
          [⟨"h".data, "t".data, "r".data, .sent⟩])), none⟩).1 ++ ':'
          :: jsonStringify (auditToJson [⟨"h".data, "t".data, "r".data, .sent⟩])) ∧
    (getAuditLog ("L".data) ((getAuditLog ("K".data) ⟨none, some (jsonStringify (auditToJson
      [⟨"h".data, "t".data, "r".data, .sent⟩])), none⟩).2)).1
      = [⟨"h".data, "t".data, "r".data, .sent⟩] ∧
    (getAuditLog ("L".data) ((getAuditLog ("K".data) ⟨none, some (jsonStringify (auditToJson
      [⟨"h".data, "t".data, "r".data, .sent⟩])), none⟩).2)).2
      = (getAuditLog ("K".data) ⟨none, some (jsonStringify (auditToJson
          [⟨"h".data, "t".data, "r".data, .sent⟩])), none⟩).2 :=
  C9_audit_migration_idempotent ("K".data) ("L".data)
    [⟨"h".data, "t".data, "r".data, .sent⟩] _ rfl (by decide)

/-- C10: within a single session (same process-lifetime key),
`saveClinicalData` followed by `loadClinicalData` returns exactly the saved
value (given the schema's length bounds): the encrypt-store-decrypt-validate
pipeline round-trips, and the load does not alter storage. -/
theorem C10_save_load_roundtrip (fresh1 fresh2 : List Char) (d : ClinicalData)
    (st : StorageState)
    (h1 : d.situation.length ≤ 10000) (h2 : d.background.length ≤ 10000)
    (h3 : d.assessment.length ≤ 10000) (h4 : d.recommendation.length ≤ 10000)
    (h5 : d.timestamp.length ≤ 100) :
    loadClinicalData fresh2 (saveClinicalData fresh1 d st)
      = (some d, saveClinicalData fresh1 d st) := by
  have hk2 : ((getOrCreateKey fresh1 st).2).sessionKey
      = some ((getOrCreateKey fresh1 st).1) := getOrCreateKey_sessionKey fresh1 st
  have hsave : saveClinicalData fresh1 d st
      = { (getOrCreateKey fresh1 st).2 with
          clinicalStore := some ('E' :: (getOrCreateKey fresh1 st).1 ++ ':'
            :: jsonStringify (clinicalToJson d)) } := by
    rcases hg : getOrCreateKey fresh1 st with ⟨k, st2⟩
    rw [saveClinicalData, encryptData, hg]
  have hjp : jsonParse (jsonStringify (clinicalToJson d)) = some (clinicalToJson d) :=
    jsonParse_stringify (parsesBack_clinicalToJson d)
  have hcs : clinicalDataSchema_safeParse (clinicalToJson d) = some d :=
    clinicalDataSchema_roundtrip d h1 h2 h3 h4 h5
  have hdec : decryptData fresh2
      ('E' :: (getOrCreateKey fresh1 st).1 ++ ':' :: jsonStringify (clinicalToJson d))
      ({ (getOrCreateKey fresh1 st).2 with
          clinicalStore := some ('E' :: (getOrCreateKey fresh1 st).1 ++ ':'
            :: jsonStringify (clinicalToJson d)) })
      = (some (jsonStringify (clinicalToJson d)),
         { (getOrCreateKey fresh1 st).2 with
          clinicalStore := some ('E' :: (getOrCreateKey fresh1 st).1 ++ ':'
            :: jsonStringify (clinicalToJson d)) }) :=
    decryptData_same_key fresh2 _ _ _ hk2
  rw [hsave, loadClinicalData]
  dsimp only
  rw [hdec]
  dsimp only
  rw [hjp]
  dsimp only
  rw [hcs]

/-- Witness for C10 at a concrete clinical record. -/
theorem C10_save_load_roundtrip_witness :
    loadClinicalData ("L".data)
        (saveClinicalData ("K".data)
          ⟨"s".data, "b".data, "a".data, "r".data, [.lab], "t".data⟩
          ⟨none, none, none⟩)
      = (some ⟨"s".data, "b".data, "a".data, "r".data, [.lab], "t".data⟩,
         saveClinicalData ("K".data)
          ⟨"s".data, "b".data, "a".data, "r".data, [.lab], "t".data⟩
          ⟨none, none, none⟩) :=
  C10_save_load_roundtrip ("K".data) ("L".data) _ _
    (by decide) (by decide) (by decide) (by decide) (by decide)

/-! # Decode is invariant under reordering of a canonical chunk set -/

theorem insertByIndex_pairwise {c : QRChunk} :
    ∀ {acc : List QRChunk}, acc.Pairwise (fun a b => a.index ≤ b.index) →
      (insertByIndex c acc).Pairwise (fun a b => a.index ≤ b.index) := by
  intro acc
  induction acc with
  | nil => intro _; exact List.pairwise_singleton _ _
  | cons d ds ih =>
    intro h
    rw [insertByIndex]
    split
    · rename_i hdc
      rw [List.pairwise_cons]
      refine ⟨?_, ih (List.pairwise_cons.mp h).2⟩
      intro x hx
      have hx2 := (insertByIndex_perm c ds).mem_iff.mp hx
      rw [List.mem_cons] at hx2
      rcases hx2 with rfl | hx3
      · exact hdc
      · exact (List.pairwise_cons.mp h).1 x hx3
    · rename_i hdc
      rw [List.pairwise_cons]
      refine ⟨?_, h⟩
      intro x hx
      rw [List.mem_cons] at hx
      rcases hx with rfl | hx2
      · omega
      · have := (List.pairwise_cons.mp h).1 x hx2
        omega

theorem sortByIndex_pairwise (l : List QRChunk) :
    (sortByIndex l).Pairwise (fun a b => a.index ≤ b.index) := by
  suffices h : ∀ (l acc : List QRChunk), acc.Pairwise (fun a b => a.index ≤ b.index) →
      (List.foldl (fun acc c => insertByIndex c acc) acc l).Pairwise
        (fun a b => a.index ≤ b.index) from h l [] List.Pairwise.nil
  intro l
  induction l with
  | nil => intro acc h; exact h
  | cons c cs ih =>
    intro acc h
    rw [List.foldl_cons]
    exact ih (insertByIndex c acc) (insertByIndex_pairwise h)

theorem decode_of_perm (n : Nat) (hn : 0 < n) (g : Nat → QRChunk)
    (hidx : ∀ i, (g i).index = i + 1) (htot : ∀ i, (g i).total = n)
    {l : List QRChunk} (hperm : l.Perm ((List.range n).map g)) :
    decodeMultiPartPayload l = decodeMultiPartPayload ((List.range n).map g) := by
  have hmemg : ∀ c ∈ l, ∃ i, i < n ∧ c = g i := by
    intro c hc
    have hc2 := hperm.mem_iff.mp hc
    rw [List.mem_map] at hc2
    obtain ⟨i, hi, rfl⟩ := hc2
    exact ⟨i, List.mem_range.mp hi, rfl⟩
  have hlen : l.length = n := by
    rw [hperm.length_eq, List.length_map, List.length_range]
  have hsr : ((List.range n).map g).Pairwise (fun a b => a.index < b.index) := by
    apply (List.pairwise_map).mpr
    apply List.Pairwise.imp (fun {a b} (hab : a < b) => ?_) (List.pairwise_lt_range n)
    rw [hidx a, hidx b]
    omega
  have hperm2 : (sortByIndex l).Perm ((List.range n).map g) :=
    (sortByIndex_perm l).trans hperm
  have hnodup : ((sortByIndex l).map QRChunk.index).Nodup := by
    have h1 := hperm2.map QRChunk.index
    apply h1.nodup_iff.mpr
    rw [List.map_map]
    rw [show QRChunk.index ∘ g = fun i => i + 1 from funext (fun i => hidx i)]
    exact (List.nodup_range n).map (fun a b => by omega)
  have hstrict : (sortByIndex l).Pairwise (fun a b => a.index < b.index) := by
    have hne : (sortByIndex l).Pairwise (fun a b => a.index ≠ b.index) :=
      (List.pairwise_map).mp hnodup
    exact ((sortByIndex_pairwise l).and hne).imp (fun {a b} hab => by omega)
  have hanti : ∀ (a b : QRChunk), a.index < b.index → b.index < a.index → a = b :=
    fun a b h1 h2 => absurd h1 (by omega)
  have hsort : sortByIndex l = (List.range n).map g := by
    have hi2 : IsAntisymm QRChunk (fun a b => a.index < b.index) := ⟨hanti⟩
    exact List.eq_of_perm_of_sorted hperm2 hstrict hsr
  obtain ⟨c0, t, rfl⟩ : ∃ c0 t, l = c0 :: t := by
    cases l with
    | nil => simp at hlen; omega
    | cons c0 t => exact ⟨c0, t, rfl⟩
  rw [decodeMultiPartPayload.eq_def]
  dsimp only
  rw [hsort]
  rw [List.length_map, List.length_range]
  have hc0tot : c0.total = n := by
    obtain ⟨i0, _, rfl⟩ := hmemg c0 (List.mem_cons_self c0 t)
    exact htot i0
  rw [hc0tot]
  rw [if_neg (by omega)]
  rw [indicesAscendingFrom_map_range n 0 g (fun i => by rw [hidx i]; omega)]
  rw [if_neg (by simp)]
  rw [List.map_map]
  rw [decodeMultiPartPayload_map_range n hn g hidx htot]
  rfl

theorem handleScan_chunk {now raw : List Char} {st : ScanState} {c : QRChunk}
    (hdup : ¬ st.lastScanned = some raw) (hp : parseQRChunk raw = some c) :
    handleScan now st raw =
      (if (mapSet st.chunks c.index c).length = c.total then
         match decodeMultiPartPayload ((mapSet st.chunks c.index c).map (fun kv => kv.2)) with
         | some payload =>
           (⟨mapSet st.chunks c.index c, some c.total, some raw, none⟩, some payload)
         | none =>
           (⟨mapSet st.chunks c.index c, some c.total, some raw, some decodeFailMsg⟩, none)
       else (⟨mapSet st.chunks c.index c, some c.total, some raw, none⟩, none)) := by
  rw [handleScan, if_neg hdup]
  dsimp only
  rw [hp]

theorem handleScan_garbage {now raw : List Char} {st : ScanState}
    (hdup : ¬ st.lastScanned = some raw) (hg : GarbageScan raw) :
    ∃ st2 : ScanState, handleScan now st raw = (st2, none) ∧
      st2.chunks = st.chunks ∧ st2.lastScanned = some raw := by
  rw [handleScan, if_neg hdup]
  dsimp only
  rw [hg.1]
  cases hj : jsonParse raw with
  | none => exact ⟨_, rfl, rfl, rfl⟩
  | some legacy =>
    have hfalse := hg.2 legacy hj
    cases legacy with
    | null => exact ⟨_, rfl, rfl, rfl⟩
    | bool b =>
      dsimp only
      rw [if_neg (by rw [hfalse]; exact Bool.false_ne_true)]
      exact ⟨_, rfl, rfl, rfl⟩
    | num i =>
      dsimp only
      rw [if_neg (by rw [hfalse]; exact Bool.false_ne_true)]
      exact ⟨_, rfl, rfl, rfl⟩
    | str s =>
      dsimp only
      rw [if_neg (by rw [hfalse]; exact Bool.false_ne_true)]
      exact ⟨_, rfl, rfl, rfl⟩
    | arr l =>
      dsimp only
      rw [if_neg (by rw [hfalse]; exact Bool.false_ne_true)]
      exact ⟨_, rfl, rfl, rfl⟩
    | obj l =>
      dsimp only
      rw [if_neg (by rw [hfalse]; exact Bool.false_ne_true)]
      exact ⟨_, rfl, rfl, rfl⟩

theorem mapSet_length_le (m : List (Nat × QRChunk)) (k : Nat) (v : QRChunk) :
    (mapSet m k v).length ≤ m.length + 1 := by
  unfold mapSet
  split
  · rw [List.length_map]
    omega
  · rw [List.length_append]
    simp

theorem mapSet_key_mem (m : List (Nat × QRChunk)) (k : Nat) (v : QRChunk) :
    k ∈ (mapSet m k v).map Prod.fst := by
  by_cases h : m.any (fun kv => kv.1 = k) = true
  · rw [mapSet_keys_overwrite v h]
    rw [List.any_eq_true] at h
    obtain ⟨kv, hkv, he⟩ := h
    simp only [decide_eq_true_eq] at he
    rw [List.mem_map]
    exact ⟨kv, hkv, he⟩
  · rw [mapSet_keys_new v h]
    simp

theorem mapSet_keys_sup (m : List (Nat × QRChunk)) (k : Nat) (v : QRChunk) :
    ∀ k2 ∈ m.map Prod.fst, k2 ∈ (mapSet m k v).map Prod.fst := by
  intro k2 hk2
  by_cases h : m.any (fun kv => kv.1 = k) = true
  · rw [mapSet_keys_overwrite v h]
    exact hk2
  · rw [mapSet_keys_new v h]
    simp [hk2]

theorem mapSet_keys_nodup {m : List (Nat × QRChunk)} (k : Nat) (v : QRChunk)
    (h : (m.map Prod.fst).Nodup) : ((mapSet m k v).map Prod.fst).Nodup := by
  by_cases hany : m.any (fun kv => kv.1 = k) = true
  · rw [mapSet_keys_overwrite v hany]
    exact h
  · rw [mapSet_keys_new v hany]
    rw [List.nodup_append]
    refine ⟨h, List.nodup_singleton _, ?_⟩
    intro a ha hb
    simp only [List.mem_singleton] at hb
    subst hb
    rw [List.mem_map] at ha
    obtain ⟨kv, hkv, hfst⟩ := ha
    apply hany
    rw [List.any_eq_true]
    exact ⟨kv, hkv, by simp [hfst]⟩

theorem runScans_complete
    (now : List Char) (n : Nat) (cs : Nat → List Char) (g : Nat → QRChunk) (J : Json)
    (hn : 0 < n)
    (hparse : ∀ i, i < n → parseQRChunk (cs i) = some (g i))
    (hidx : ∀ i, (g i).index = i + 1)
    (htot : ∀ i, (g i).total = n)
    (hdec : decodeMultiPartPayload ((List.range n).map g) = some J) :
    ∀ (s : List (List Char)) (st : ScanState),
      (∀ kv ∈ st.chunks, ∃ i, i < n ∧ kv = (i + 1, g i)) →
      (st.chunks.map Prod.fst).Nodup →
      st.chunks.length < n →
      (∀ x, st.lastScanned = some x → ∀ i, i < n → x = cs i →
        i + 1 ∈ st.chunks.map Prod.fst) →
      (∀ raw ∈ s, (∃ i, i < n ∧ raw = cs i) ∨ GarbageScan raw) →
      (∀ i, i < n → ¬ (i + 1 ∈ st.chunks.map Prod.fst) → cs i ∈ s) →
      runScans now st s = some J := by
  intro s
  induction s with
  | nil =>
    intro st hentry hnodup hlt hlast helem hmiss
    exfalso
    have hall : ∀ i, i < n → i + 1 ∈ st.chunks.map Prod.fst := by
      intro i hi
      by_contra hc
      exact absurd (hmiss i hi hc) (List.not_mem_nil _)
    have hsub : (List.range n).map (fun i => i + 1) ⊆ st.chunks.map Prod.fst := by
      intro k hk
      rw [List.mem_map] at hk
      obtain ⟨i, hi, rfl⟩ := hk
      exact hall i (List.mem_range.mp hi)
    have hnd : ((List.range n).map (fun i => i + 1)).Nodup :=
      (List.nodup_range n).map (fun a b => by omega)
    have hlen := (hnd.subperm hsub).length_le
    rw [List.length_map, List.length_range, List.length_map] at hlen
    omega
  | cons raw rest ih =>
    intro st hentry hnodup hlt hlast helem hmiss
    rw [runScans]
    by_cases hdup : st.lastScanned = some raw
    · rw [handleScan, if_pos hdup]
      dsimp only
      apply ih st hentry hnodup hlt hlast
      · intro r hr
        exact helem r (List.mem_cons_of_mem raw hr)
      · intro i hi hmem
        have h2 := hmiss i hi hmem
        rw [List.mem_cons] at h2
        rcases h2 with he | h3
        · exact absurd (hlast raw hdup i hi he.symm) hmem
        · exact h3
    · rcases helem raw (List.mem_cons_self raw rest) with ⟨j, hj, rfl⟩ | hgarb
      · have hp := hparse j hj
        rw [handleScan_chunk hdup hp, htot j, hidx j]
        have hentry2 : ∀ kv ∈ mapSet st.chunks (j + 1) (g j),
            ∃ i, i < n ∧ kv = (i + 1, g i) := by
          intro kv hkv
          rcases mapSet_mem kv hkv with h1 | h2
          · exact hentry kv h1
          · exact ⟨j, hj, h2⟩
        have hnodup2 := mapSet_keys_nodup (j + 1) (g j) hnodup
        by_cases hcomp : (mapSet st.chunks (j + 1) (g j)).length = n
        · rw [if_pos hcomp]
          have hsub : (mapSet st.chunks (j + 1) (g j)).map Prod.fst
              ⊆ (List.range n).map (fun i => i + 1) := by
            intro k hk
            rw [List.mem_map] at hk
            obtain ⟨kv, hkv, rfl⟩ := hk
            obtain ⟨i, hi, rfl⟩ := hentry2 kv hkv
            rw [List.mem_map]
            exact ⟨i, List.mem_range.mpr hi, rfl⟩
          have hkperm : ((mapSet st.chunks (j + 1) (g j)).map Prod.fst).Perm
              ((List.range n).map (fun i => i + 1)) := by
            apply (hnodup2.subperm hsub).perm_of_length_le
            rw [List.length_map, List.length_range, List.length_map, hcomp]
          have hvals : (mapSet st.chunks (j + 1) (g j)).map (fun kv => kv.2)
              = ((mapSet st.chunks (j + 1) (g j)).map Prod.fst).map (fun k => g (k - 1)) := by
            rw [List.map_map]
            apply List.map_congr_left
            intro kv hkv
            obtain ⟨i, hi, rfl⟩ := hentry2 kv hkv
            rfl
          have hvperm : ((mapSet st.chunks (j + 1) (g j)).map (fun kv => kv.2)).Perm
              ((List.range n).map g) := by
            rw [hvals]
            have h2 := hkperm.map (fun k => g (k - 1))
            refine h2.trans ?_
            rw [List.map_map]
            rw [show ((fun k => g (k - 1)) ∘ fun i => i + 1) = g from funext (fun i => rfl)]
          have hd := (decode_of_perm n hn g hidx htot hvperm).trans hdec
          rw [hd]
        · rw [if_neg hcomp]
          dsimp only
          apply ih ⟨mapSet st.chunks (j + 1) (g j), some n, some (cs j), none⟩ hentry2 hnodup2
          · have := mapSet_length_le st.chunks (j + 1) (g j)
            dsimp only
            omega
          · intro x hx i hi hxi
            dsimp only at hx
            have hxr : x = cs j := Option.some.inj hx.symm
            rw [hxr] at hxi
            have hgi : g i = g j := by
              have h2 := hparse i hi
              rw [← hxi] at h2
              exact Option.some.inj (h2.symm.trans hp)
            have hij : i = j := by
              have h3 := hidx i
              rw [hgi, hidx j] at h3
              omega
            rw [hij]
            dsimp only
            exact mapSet_key_mem st.chunks (j + 1) (g j)
          · intro r hr
            exact helem r (List.mem_cons_of_mem _ hr)
          · intro i hi hmem
            dsimp only at hmem
            have hold : ¬ (i + 1 ∈ st.chunks.map Prod.fst) := by
              intro hc
              exact hmem (mapSet_keys_sup st.chunks (j + 1) (g j) _ hc)
            have h2 := hmiss i hi hold
            rw [List.mem_cons] at h2
            rcases h2 with he | h3
            · exfalso
              have hgi : g i = g j := by
                have h4 := hparse i hi
                rw [he] at h4
                exact Option.some.inj (h4.symm.trans hp)
              have hij : i = j := by
                have h5 := hidx i
                rw [hgi, hidx j] at h5
                omega
              rw [hij] at hmem
              exact hmem (mapSet_key_mem st.chunks (j + 1) (g j))
            · exact h3
      · obtain ⟨st2, heq, hch, hls⟩ := handleScan_garbage hdup hgarb
        rw [heq]
        dsimp only
        apply ih st2
        · rw [hch]; exact hentry
        · rw [hch]; exact hnodup
        · rw [hch]; exact hlt
        · intro x hx i hi hxi
          exfalso
          rw [hls] at hx
          have hxr : x = raw := Option.some.inj hx.symm
          rw [hxr] at hxi
          have h2 := hparse i hi
          rw [← hxi] at h2
          rw [hgarb.1] at h2
          exact Option.noConfusion h2
        · intro r hr
          exact helem r (List.mem_cons_of_mem _ hr)
        · intro i hi hmem
          rw [hch] at hmem
          have h2 := hmiss i hi hmem
          rw [List.mem_cons] at h2
          rcases h2 with he | h3
          · exfalso
            have h4 := hparse i hi
            rw [he] at h4
            rw [hgarb.1] at h4
            exact Option.noConfusion h4
          · exact h3

theorem encode_canonical (P : MultiPartPayload) :
    ∃ (n : Nat) (cs : Nat → List Char) (g : Nat → QRChunk),
      0 < n ∧
      encodeMultiPartPayload P = .ok ((List.range n).map cs) ∧
      (∀ i, i < n → parseQRChunk (cs i) = some (g i)) ∧
      (∀ i, (g i).index = i + 1) ∧
      (∀ i, (g i).total = n) ∧
      decodeMultiPartPayload ((List.range n).map g) = some (payloadToJson P) := by
  have hjp : jsonParse (jsonStringify (payloadToJson P)) = some (payloadToJson P) :=
    jsonParse_stringify (parsesBack_payloadToJson P)
  have hjne : jsonStringify (payloadToJson P) ≠ [] := jsonStringify_ne_nil _
  set json := jsonStringify (payloadToJson P) with hjson
  rw [encodeMultiPartPayload.eq_def]
  dsimp only
  rw [show compressToBase64 (jsonStringify (payloadToJson P)) = 'Z' :: json from rfl]
  rw [if_neg (by simp)]
  by_cases hsz : ('Z' :: json).length + 10 ≤ MAX_CHUNK_SIZE
  · rw [if_pos hsz]
    refine ⟨1, fun i => protocolMarker ++ toDecimal (i + 1) ++ ':' :: toDecimal 1
        ++ ':' :: ('Z' :: json),
      fun i => ⟨i + 1, 1, 'Z' :: json⟩, by omega, rfl, ?_, fun i => rfl, fun i => rfl, ?_⟩
    · intro i hi
      have h0 : i = 0 := by omega
      subst h0
      rw [parseQRChunk_encoded 1 1 ('Z' :: json) (le_refl 1) (le_refl 1)]
    · rw [decodeMultiPartPayload_map_range 1 (by omega)
        (fun i => (⟨i + 1, 1, 'Z' :: json⟩ : QRChunk)) (fun i => rfl) (fun i => rfl)]
      have hflat : ((List.range 1).map (fun i =>
          ((⟨i + 1, 1, 'Z' :: json⟩ : QRChunk)).data)).flatten = 'Z' :: json := by
        simp
      rw [hflat]
      rw [show decompressFromBase64 ('Z' :: json) = some json from rfl]
      dsimp only
      rw [if_neg hjne]
      exact hjp
  · rw [if_neg hsz]
    set len := ('Z' :: json).length with hlen
    set tc := (len + (MAX_CHUNK_SIZE - 10) - 1) / (MAX_CHUNK_SIZE - 10) with htc
    have hm : MAX_CHUNK_SIZE - 10 = 890 := rfl
    have hlenlb : 891 ≤ len := by
      simp only [MAX_CHUNK_SIZE] at hsz
      omega
    have htcpos : 0 < tc := by
      rw [htc, hm]
      omega
    have hcover : len ≤ tc * (MAX_CHUNK_SIZE - 10) := by
      rw [htc, hm]
      omega
    refine ⟨tc, _, fun i => ⟨i + 1, tc,
        (('Z' :: json).take (min (i * (MAX_CHUNK_SIZE - 10) + (MAX_CHUNK_SIZE - 10)) len)).drop
          (i * (MAX_CHUNK_SIZE - 10))⟩,
      htcpos, rfl, ?_, fun i => rfl, fun i => rfl, ?_⟩
    · intro i hi
      rw [parseQRChunk_encoded (i + 1) tc _ (by omega) (by omega)]
    · rw [decodeMultiPartPayload_map_range tc htcpos _ (fun i => rfl) (fun i => rfl)]
      have hflat : ((List.range tc).map (fun i =>
          (('Z' :: json).take (min (i * (MAX_CHUNK_SIZE - 10) + (MAX_CHUNK_SIZE - 10)) len)).drop
            (i * (MAX_CHUNK_SIZE - 10)))).flatten = 'Z' :: json := by
        rw [hlen]
        exact flatten_slices (MAX_CHUNK_SIZE - 10) (by rw [hm]; omega) tc ('Z' :: json)
          (by rw [← hlen]; exact hcover)
      rw [hflat]
      rw [show decompressFromBase64 ('Z' :: json) = some json from rfl]
      dsimp only
      rw [if_neg hjne]
      exact hjp

/-- C5: noise tolerance of the scan aggregator.  For any complete valid chunk
set produced by the encoder, feeding the scanner any sequence built from those
chunk strings — in any order, with repeats — interleaved with garbage strings
(ones that neither parse as a chunk nor pass the legacy single-patient check),
such that every chunk string occurs, reaches completion with exactly the
encoded payload; and the noise-free run of just the chunk strings yields the
identical result. -/
theorem C5_noise_tolerance (now : List Char) (P : MultiPartPayload)
    (chunkStrs s : List (List Char))
    (hok : encodeMultiPartPayload P = .ok chunkStrs)
    (helem : ∀ raw ∈ s, raw ∈ chunkStrs ∨ GarbageScan raw)
    (hsub : ∀ x ∈ chunkStrs, x ∈ s) :
    runScans now initialScanState s = some (payloadToJson P) ∧
    runScans now initialScanState chunkStrs = some (payloadToJson P) := by
  obtain ⟨n, cs, g, hn, hok2, hparse, hidx, htot, hdec⟩ := encode_canonical P
  rw [hok] at hok2
  have hcs : chunkStrs = (List.range n).map cs := Except.ok.inj hok2
  have main : ∀ (s2 : List (List Char)),
      (∀ raw ∈ s2, raw ∈ chunkStrs ∨ GarbageScan raw) →
      (∀ x ∈ chunkStrs, x ∈ s2) →
      runScans now initialScanState s2 = some (payloadToJson P) := by
    intro s2 he2 hs2
    apply runScans_complete now n cs g (payloadToJson P) hn hparse hidx htot hdec s2
      initialScanState
    · intro kv hkv
      simp [initialScanState] at hkv
    · simp [initialScanState]
    · show ([] : List (Nat × QRChunk)).length < n
      simpa using hn
    · intro x hx
      simp [initialScanState] at hx
    · intro raw hraw
      rcases he2 raw hraw with hc | hg
      · left
        rw [hcs, List.mem_map] at hc
        obtain ⟨i, hi, rfl⟩ := hc
        exact ⟨i, List.mem_range.mp hi, rfl⟩
      · right
        exact hg
    · intro i hi _
      apply hs2
      rw [hcs, List.mem_map]
      exact ⟨i, List.mem_range.mpr hi, rfl⟩
  exact ⟨main s helem hsub, main chunkStrs (fun raw hraw => Or.inl hraw) (fun x hx => hx)⟩

/-- Witness for C5: a garbage frame followed by the (repeated) single encoded
chunk of a small payload still completes with that payload, as does the
noise-free run. -/
theorem C5_noise_tolerance_witness :
    runScans [] initialScanState
      ["*".data,
       protocolMarker ++ '1' :: ':' :: '1' :: ':'
         :: compressToBase64 (jsonStringify (payloadToJson ⟨[], [], []⟩)),
       protocolMarker ++ '1' :: ':' :: '1' :: ':'
         :: compressToBase64 (jsonStringify (payloadToJson ⟨[], [], []⟩))]
      = some (payloadToJson ⟨[], [], []⟩) ∧
    runScans [] initialScanState
      [protocolMarker ++ '1' :: ':' :: '1' :: ':'
         :: compressToBase64 (jsonStringify (payloadToJson ⟨[], [], []⟩))]
      = some (payloadToJson ⟨[], [], []⟩) :=
  C5_noise_tolerance [] ⟨[], [], []⟩
    [protocolMarker ++ '1' :: ':' :: '1' :: ':'
       :: compressToBase64 (jsonStringify (payloadToJson ⟨[], [], []⟩))]
    ["*".data,
     protocolMarker ++ '1' :: ':' :: '1' :: ':'
       :: compressToBase64 (jsonStringify (payloadToJson ⟨[], [], []⟩)),
     protocolMarker ++ '1' :: ':' :: '1' :: ':'
       :: compressToBase64 (jsonStringify (payloadToJson ⟨[], [], []⟩))]
    rfl
    (by
      intro raw hraw
      simp only [List.mem_cons, List.not_mem_nil, or_false] at hraw
      rcases hraw with rfl | rfl | rfl
      · right
        refine ⟨rfl, fun j hj => ?_⟩
        rw [show jsonParse ("*".data) = (none : Option Json) from rfl] at hj
        exact Option.noConfusion hj
      · left
        exact List.mem_cons_self _ _
      · left
        exact List.mem_cons_self _ _)
    (by
      intro x hx
      simp only [List.mem_cons, List.not_mem_nil, or_false] at hx
      rw [hx]
      exact List.mem_cons_of_mem _ (List.mem_cons_self _ _))

theorem clinicalDataSchema_overlong (cd : ClinicalData)
    (h : ¬ cd.situation.length ≤ 10000) :
    clinicalDataSchema_safeParse (clinicalToJson cd) = none := by
  obtain ⟨s, b, a, r, pe, ts⟩ := cd
  simp only at h
  have key : clinicalDataSchema_safeParse (clinicalToJson ⟨s, b, a, r, pe, ts⟩)
      = (zString 10000 (.str s)).bind (fun sv =>
          (zString 10000 (.str b)).bind (fun bv =>
            (zString 10000 (.str a)).bind (fun av =>
              (zString 10000 (.str r)).bind (fun rv =>
                (zArray (zEnum PendingType.ofStr?)
                    (.arr (JsonList.ofList (pe.map (fun p => .str p.toStr))))).bind (fun pev =>
                  (zString 100 (.str ts)).bind (fun tsv =>
                    some ⟨sv, bv, av, rv, pev, tsv⟩)))))) := rfl
  rw [key]
  simp only [zString, if_neg h, Option.none_bind]

theorem save_load_overlong (fresh1 fresh2 : List Char) (d : ClinicalData)
    (st : StorageState) (h : ¬ d.situation.length ≤ 10000) :
    (loadClinicalData fresh2 (saveClinicalData fresh1 d st)).1 = none := by
  have hk2 : ((getOrCreateKey fresh1 st).2).sessionKey
      = some ((getOrCreateKey fresh1 st).1) := getOrCreateKey_sessionKey fresh1 st
  have hsave : saveClinicalData fresh1 d st
      = { (getOrCreateKey fresh1 st).2 with
          clinicalStore := some ('E' :: (getOrCreateKey fresh1 st).1 ++ ':'
            :: jsonStringify (clinicalToJson d)) } := by
    rcases hg : getOrCreateKey fresh1 st with ⟨k, st2⟩
    rw [saveClinicalData, encryptData, hg]
  have hjp : jsonParse (jsonStringify (clinicalToJson d)) = some (clinicalToJson d) :=
    jsonParse_stringify (parsesBack_clinicalToJson d)
  have hcs : clinicalDataSchema_safeParse (clinicalToJson d) = none :=
    clinicalDataSchema_overlong d h
  have hdec : decryptData fresh2
      ('E' :: (getOrCreateKey fresh1 st).1 ++ ':' :: jsonStringify (clinicalToJson d))
      ({ (getOrCreateKey fresh1 st).2 with
          clinicalStore := some ('E' :: (getOrCreateKey fresh1 st).1 ++ ':'
            :: jsonStringify (clinicalToJson d)) })
      = (some (jsonStringify (clinicalToJson d)),
         { (getOrCreateKey fresh1 st).2 with
          clinicalStore := some ('E' :: (getOrCreateKey fresh1 st).1 ++ ':'
            :: jsonStringify (clinicalToJson d)) }) :=
    decryptData_same_key fresh2 _ _ _ hk2
  rw [hsave, loadClinicalData]
  dsimp only
  rw [hdec]
  dsimp only
  rw [hjp]
  dsimp only
  rw [hcs]

/-- C10 counterexample: `saveClinicalData` stores a clinical record whose
`situation` text has 10001 characters without validating it, but
`loadClinicalData` runs `ClinicalDataSchema.safeParse` (`z.string().max(10000)`)
on the decrypted value and returns `null` — the pipeline does not round-trip
every `ClinicalData` value. -/
theorem C10_counterexample :
    ¬ (List.replicate 10001 'a').length ≤ 10000 ∧
    (loadClinicalData ("L".data) (saveClinicalData ("K".data)
        ⟨List.replicate 10001 'a', [], [], [], [], []⟩ ⟨none, none, none⟩)).1 = none := by
  constructor
  · rw [List.length_replicate]
    omega
  · apply save_load_overlong
    show ¬ (List.replicate 10001 'a').length ≤ 10000
    rw [List.length_replicate]
    omega
